import Mathlib

/-!
Formal model of the Note Data Format engine
(src/notedf-py/ndf/parser.py, class NoteDataFormat).

Python strings are modelled as lists of characters (`Str`); Python values
as the mutual inductive family `PyValue` / `PyList` / `PyDict`
(dictionaries keep insertion order, as CPython dicts do; updating an
existing key keeps its position and replaces the value).  Python floats
are embedded by their literal text: the scalar parser stores the accepted
float literal verbatim, which agrees with CPython on every canonical
float repr — the only float texts the serializer can emit.  The
index-threading loops of the source are modelled as recursion over the
suffix of the line list, returning the number of consumed lines instead
of the new index; `_parse_block`'s while-loop carries a fuel argument
that is always instantiated with the number of lines, which is proved
sufficient below (fuel stability).
-/

namespace Ndf

/-- A Python string, modelled as its list of characters. -/
abbrev Str := List Char

/-- Characters stripped by Python's default `str.strip` (ASCII whitespace). -/
def isPySpace (c : Char) : Bool :=
  c == ' ' || c == '\t' || c == '\n' || c == '\r' || c == '\x0b' || c == '\x0c'

/-- Python `str.lstrip()`. -/
def lstrip (l : Str) : Str := l.dropWhile isPySpace

/-- Python `str.rstrip()`. -/
def rstrip (l : Str) : Str := (l.reverse.dropWhile isPySpace).reverse

/-- Python `str.strip()`. -/
def strip (l : Str) : Str := lstrip (rstrip l)

/-- Python `str.lower()` (ASCII). -/
def lower (l : Str) : Str := l.map Char.toLower

/-- Python `s.split(sep)` for a one-character separator: keeps empty pieces. -/
def splitChar (sep : Char) : Str → List Str
  | [] => [[]]
  | c :: rest =>
    let r := splitChar sep rest
    if c == sep then [] :: r else (c :: r.headD []) :: r.tail

/-- Python `'\n'.join(pieces)`. -/
def joinNL : List Str → Str
  | [] => []
  | [l] => l
  | l :: ls => l ++ '\n' :: joinNL ls

/-- Python `', '.join(pieces)` (also used with `", "`). -/
def joinCS : List Str → Str
  | [] => []
  | [l] => l
  | l :: ls => l ++ ',' :: ' ' :: joinCS ls

/-- Source `_get_indent`: `len(line) - len(line.lstrip())`. -/
def get_indent (l : Str) : Nat := l.length - (l.dropWhile isPySpace).length

/-- Source `_remove_inline_comment`: everything before the first `#`
(the whole line when there is none). -/
def remove_inline_comment (l : Str) : Str := l.takeWhile (fun c => !(c == '#'))

/-- Source `_split_key_value`: split at the first `:`, strip both parts. -/
def split_key_value (l : Str) : Str × Str :=
  (strip (l.takeWhile (fun c => !(c == ':'))),
   strip ((l.dropWhile (fun c => !(c == ':'))).drop 1))

/-- Whether `line.strip()` starts with the comment marker
(`.startswith('#')`; false on the empty string). -/
def startsHash (l : Str) : Bool := l.headD '.' == '#'

/-- Numeric value of an ASCII digit character. -/
def digitVal (c : Char) : Nat := c.toNat - 48

/-- A digit group as accepted by Python's `int()` / `float()` grammars:
nonempty digits with single underscores allowed strictly between digits. -/
def digitGroupOk : Str → Bool
  | [] => false
  | [c] => c.isDigit
  | c :: d :: rest =>
    c.isDigit && (if d == '_' then digitGroupOk rest else digitGroupOk (d :: rest))

/-- Value of a digit group (underscores skipped). -/
def digitsToNat (l : Str) : Nat :=
  l.foldl (fun acc c => if c == '_' then acc else acc * 10 + digitVal c) 0

/-- Python `int(value)` on an already-stripped value: sign and digit group. -/
def pyIntParse : Str → Option Int
  | '+' :: rest => if digitGroupOk rest then some (Int.ofNat (digitsToNat rest)) else none
  | '-' :: rest => if digitGroupOk rest then some (-(Int.ofNat (digitsToNat rest))) else none
  | l => if digitGroupOk l then some (Int.ofNat (digitsToNat l)) else none

/-- Drop one leading sign character if present. -/
def dropSign : Str → Str
  | '+' :: r => r
  | '-' :: r => r
  | r => r

/-- Mantissa part of Python's `float()` grammar: digits with an optional
decimal point, at least one digit overall. -/
def mantissaOk (m : Str) : Bool :=
  let ip := m.takeWhile (fun c => !(c == '.'))
  match m.dropWhile (fun c => !(c == '.')) with
  | [] => digitGroupOk m
  | _ :: fp =>
    (ip.isEmpty || digitGroupOk ip) && (fp.isEmpty || digitGroupOk fp) &&
      !(ip.isEmpty && fp.isEmpty)

/-- Whether Python's `float(value)` succeeds on an already-stripped value. -/
def pyFloatOk (v : Str) : Bool :=
  let b := dropSign v
  if lower b = "inf".data ∨ lower b = "infinity".data ∨ lower b = "nan".data then true
  else
    let mant := b.takeWhile (fun c => !(c == 'e' || c == 'E'))
    match b.dropWhile (fun c => !(c == 'e' || c == 'E')) with
    | [] => mantissaOk mant
    | _ :: ex => mantissaOk mant && digitGroupOk (dropSign ex)

/-- ASCII digit character for a value below ten. -/
def digitChar (d : Nat) : Char := Char.ofNat (48 + d)

/-- Decimal digits of a positive number, most significant first; the first
argument is fuel (instantiated with the number itself, which suffices). -/
def natDigits : Nat → Nat → Str
  | _, 0 => []
  | 0, _ + 1 => []
  | f + 1, n + 1 => natDigits f ((n + 1) / 10) ++ [digitChar ((n + 1) % 10)]

/-- Canonical decimal text of a natural number (Python `str`). -/
def natStr (n : Nat) : Str := if n = 0 then ['0'] else natDigits n n

/-- Canonical decimal text of an integer (Python `str(int)`). -/
def intStr (n : Int) : Str := if n < 0 then '-' :: natStr n.natAbs else natStr n.toNat

mutual

/-- A Python value as produced by the parser: `None`, `bool`, `int`,
`float` (embedded by its literal text), `str`, `list`, `dict`. -/
inductive PyValue where
  | null
  | bool (b : Bool)
  | int (n : Int)
  | float (lit : Str)
  | str (s : Str)
  | list (xs : PyList)
  | dict (m : PyDict)

/-- A Python list of values. -/
inductive PyList where
  | nil
  | cons (v : PyValue) (tl : PyList)

/-- A Python dict from strings to values, in insertion order. -/
inductive PyDict where
  | nil
  | cons (k : Str) (v : PyValue) (tl : PyDict)

end

deriving instance DecidableEq for PyValue, PyList, PyDict

/-- Build a `PyList` from a Lean list. -/
def PyList.ofList : List PyValue → PyList
  | [] => .nil
  | v :: vs => .cons v (PyList.ofList vs)

/-- CPython `d[k] = v`: an existing key keeps its position and gets the
new value, a new key is appended at the end. -/
def dictInsert : PyDict → Str → PyValue → PyDict
  | .nil, k, v => .cons k v .nil
  | .cons k0 v0 rest, k, v =>
    if k0 = k then .cons k0 v rest else .cons k0 v0 (dictInsert rest k v)

/-- Source `_parse_simple_value`: quotes, booleans, null literals, numbers,
with plain-string fallback.  A float is kept as its literal text. -/
def parse_simple_value (v0 : Str) : PyValue :=
  let v := strip v0
  let sq := Char.ofNat 39
  if (v.head? = some '"' ∧ v.getLast? = some '"') ∨
     (v.head? = some sq ∧ v.getLast? = some sq) then
    PyValue.str ((v.drop 1).dropLast)
  else if lower v = "yes".data ∨ lower v = "true".data then PyValue.bool true
  else if lower v = "no".data ∨ lower v = "false".data then PyValue.bool false
  else if lower v = "null".data ∨ lower v = "none".data ∨ lower v = "-".data then
    PyValue.null
  else if v.contains '.' || (lower v).contains 'e' then
    if pyFloatOk v then PyValue.float v else PyValue.str v
  else
    match pyIntParse v with
    | some n => PyValue.int n
    | none => PyValue.str v

/-- Fold of source `_parse_inline_object`'s pair loop. -/
def inlinePairs : List Str → PyDict → PyDict
  | [], acc => acc
  | p :: ps, acc =>
    if p.contains ':' then
      let k := p.takeWhile (fun c => !(c == ':'))
      let v := (p.dropWhile (fun c => !(c == ':'))).drop 1
      inlinePairs ps (dictInsert acc (strip k) (parse_simple_value (strip v)))
    else inlinePairs ps acc

/-- Source `_parse_inline_object`: strip braces, split on commas, keep the
pairs that contain a colon (keys raw-trimmed, values parsed as scalars). -/
def parse_inline_object (t0 : Str) : PyValue :=
  let t := ((strip t0).drop 1).dropLast
  PyValue.dict (inlinePairs (splitChar ',' t) PyDict.nil)

/-- Whether a separator for the implicit-list split (source
`re.split(r'[,\s]+', value)`): a comma or whitespace. -/
def isSep (c : Char) : Bool := c == ',' || isPySpace c

/-- Maximal runs of non-separator characters — exactly the nonempty
stripped items of the source's `re.split(r'[,\s]+', value)` comprehension. -/
def sepSplit : Str → List Str
  | [] => []
  | [c] => if isSep c then [] else [[c]]
  | c :: d :: rest =>
    let r := sepSplit (d :: rest)
    if isSep c then r
    else if isSep d then [c] :: r
    else
      match r with
      | g :: gs => (c :: g) :: gs
      | [] => [[c]]

mutual

/-- Source `_parse_array`: strip brackets; with nested `[` use the
depth-tracking loop, otherwise split flatly on commas.  The fuel is
instantiated by the caller with more than the text length, which bounds
the nesting depth. -/
def parse_array : Nat → Str → PyList
  | 0, _ => PyList.nil
  | fuel + 1, t0 =>
    let t := ((strip t0).drop 1).dropLast
    if t.contains '[' then arrayItems fuel (t ++ [',']) 0 []
    else
      PyList.ofList
        ((((splitChar ',' t).map strip).filter (fun s => !s.isEmpty)).map
          parse_simple_value)
termination_by fuel t => (fuel, 0)

/-- The depth-tracking character loop of source `_parse_array`. -/
def arrayItems : Nat → Str → Int → Str → PyList
  | _, [], _, _ => PyList.nil
  | fuel, c :: rest, depth, item =>
    if c == '[' then arrayItems fuel rest (depth + 1) (item ++ [c])
    else if c == ']' then arrayItems fuel rest (depth - 1) (item ++ [c])
    else if c == ',' && depth == 0 then
      if !(strip item).isEmpty then
        if (strip item).head? = some '[' then
          PyList.cons (PyValue.list (parse_array fuel (strip item)))
            (arrayItems fuel rest 0 [])
        else
          PyList.cons (parse_simple_value (strip item)) (arrayItems fuel rest 0 [])
      else arrayItems fuel rest 0 []
    else arrayItems fuel rest depth (item ++ [c])
termination_by fuel cs depth item => (fuel, cs.length + 1)

end

/-- Source `_parse_value`: inline object, inline array, implicit list
(comma, or space in an unquoted value), otherwise a single scalar. -/
def parse_value (v0 : Str) : PyValue :=
  let v := strip v0
  if v.head? = some '{' ∧ v.getLast? = some '}' then parse_inline_object v
  else if v.head? = some '[' ∧ v.getLast? = some ']' then
    PyValue.list (parse_array (v.length + 1) v)
  else if v.contains ',' || (v.contains ' ' && !(v.head? == some '"')) then
    PyValue.list (PyList.ofList ((sepSplit v).map parse_simple_value))
  else parse_simple_value v

/-- Collection loop of source `_parse_multiline`, over the lines after the
`key: |` line: collect (with `indent + 2` leading characters removed) while
the line is blank or indented deeper than the key; also return how many
lines were consumed. -/
def parse_multiline_go (indent : Nat) : List Str → List Str × Nat
  | [] => ([], 0)
  | l :: rest =>
    if get_indent l ≤ indent ∧ strip l ≠ [] then ([], 0)
    else
      let p := parse_multiline_go indent rest
      (l.drop (indent + 2) :: p.1, p.2 + 1)

/-- Scan loop of source `_parse_nested`, over the lines after the `key:`
line: skip blank/comment lines, stop at indentation at or below the key,
collect the rest; also return how many lines were scanned. -/
def parse_nested_go (indent : Nat) : List Str → List Str × Nat
  | [] => ([], 0)
  | l :: rest =>
    if strip l = [] ∨ startsHash (strip l) then
      let p := parse_nested_go indent rest
      (p.1, p.2 + 1)
    else if get_indent l ≤ indent then ([], 0)
    else
      let p := parse_nested_go indent rest
      (l :: p.1, p.2 + 1)

/-- Source `_parse_block`'s while-loop, modelled on the suffix of the line
list: returns the accumulated dict and the number of lines consumed.  The
fuel only bounds the loop; instantiating it with the number of lines is
sufficient (see `parse_block_go_fuel_stable`). -/
def parse_block_go : Nat → List Str → Nat → PyDict → PyDict × Nat
  | _, [], _, acc => (acc, 0)
  | 0, _ :: _, _, acc => (acc, 0)
  | fuel + 1, line :: rest, startIndent, acc =>
    if strip line = [] ∨ startsHash (strip line) then
      let p := parse_block_go fuel rest startIndent acc
      (p.1, p.2 + 1)
    else
      let indent := get_indent line
      if indent < startIndent then (acc, 0)
      else if startIndent < indent then
        let p := parse_block_go fuel rest startIndent acc
        (p.1, p.2 + 1)
      else
        let cl := strip (remove_inline_comment line)
        if ¬ cl.contains ':' then
          let p := parse_block_go fuel rest startIndent acc
          (p.1, p.2 + 1)
        else
          let kv := split_key_value cl
          if kv.2 = ['|'] then
            let m := parse_multiline_go indent rest
            let p := parse_block_go fuel (rest.drop m.2) startIndent
              (dictInsert acc kv.1 (PyValue.str (rstrip (joinNL m.1))))
            (p.1, p.2 + m.2 + 1)
          else if kv.2 = [] then
            let nst := parse_nested_go indent rest
            if nst.1 ≠ [] then
              let sub := parse_block_go fuel nst.1 (indent + 2) PyDict.nil
              let p := parse_block_go fuel (rest.drop nst.2) startIndent
                (dictInsert acc kv.1 (PyValue.dict sub.1))
              (p.1, p.2 + nst.2 + 1)
            else
              let p := parse_block_go fuel rest startIndent
                (dictInsert acc kv.1 PyValue.null)
              (p.1, p.2 + 1)
          else
            let p := parse_block_go fuel rest startIndent
              (dictInsert acc kv.1 (parse_value kv.2))
            (p.1, p.2 + 1)

/-- Source `_parse_block`. -/
def parse_block (lines : List Str) (startIndent : Nat) : PyDict × Nat :=
  parse_block_go lines.length lines startIndent PyDict.nil

/-- Source `parse`: strip the text, split into lines, parse the root block
at indentation 0. -/
def parse (text : Str) : PyDict :=
  (parse_block (splitChar '\n' (strip text)) 0).1

/-- Python `repr` of a string: quoted with `'` (or `"` when the content
contains `'` but no `"`), with backslash, quote and control-character
escapes (non-printable escapes beyond `\n`, `\r`, `\t` are not modelled —
no serializable value in this development contains such characters). -/
def strRepr (s : Str) : Str :=
  let sq := Char.ofNat 39
  let q := if s.contains sq && !(s.contains '"') then '"' else sq
  let esc := s.foldr
    (fun c acc =>
      if c == '\\' then '\\' :: '\\' :: acc
      else if c == '\n' then '\\' :: 'n' :: acc
      else if c == '\r' then '\\' :: 'r' :: acc
      else if c == '\t' then '\\' :: 't' :: acc
      else if c == q then '\\' :: c :: acc
      else c :: acc) []
  q :: esc ++ [q]

mutual

/-- Python `str()` of a value, as used by the serializer's f-strings and
`map(str, value)`. -/
def pyStr : PyValue → Str
  | .null => "None".data
  | .bool true => "True".data
  | .bool false => "False".data
  | .int n => intStr n
  | .float lit => lit
  | .str s => s
  | .list xs => '[' :: joinCS (pyReprL xs) ++ [']']
  | .dict m => '\x7b' :: joinCS (pyReprD m) ++ ['\x7d']

/-- Python `repr()` of a value (used for the elements of containers). -/
def pyRepr : PyValue → Str
  | .null => "None".data
  | .bool true => "True".data
  | .bool false => "False".data
  | .int n => intStr n
  | .float lit => lit
  | .str s => strRepr s
  | .list xs => '[' :: joinCS (pyReprL xs) ++ [']']
  | .dict m => '\x7b' :: joinCS (pyReprD m) ++ ['\x7d']

/-- Python `repr` of each element of a list. -/
def pyReprL : PyList → List Str
  | .nil => []
  | .cons v tl => pyRepr v :: pyReprL tl

/-- Python `repr` of each `key: value` entry of a dict. -/
def pyReprD : PyDict → List Str
  | .nil => []
  | .cons k v tl => (strRepr k ++ ':' :: ' ' :: pyRepr v) :: pyReprD tl

end

/-- The `'  ' * indent` indentation string of the serializer. -/
def indentTxt (indent : Nat) : Str := List.replicate (2 * indent) ' '

/-- Source `_format_list`'s scalar test:
`isinstance(x, (int, float, str, bool))` for every element. -/
def allScalar : PyList → Bool
  | .nil => true
  | .cons v tl =>
    (match v with
     | .int _ => true
     | .float _ => true
     | .str _ => true
     | .bool _ => true
     | _ => false) && allScalar tl

/-- Python `str()` of each element of a list (for `map(str, value)`). -/
def pyStrL : PyList → List Str
  | .nil => []
  | .cons v tl => pyStr v :: pyStrL tl

/-- Source `_format_multiline`: `key: |` then each line of the string
prefixed with one extra indent step. -/
def format_multiline (k : Str) (s : Str) (indentStr : Str) : Str :=
  joinNL ((indentStr ++ k ++ ':' :: ' ' :: '|' :: []) ::
    (splitChar '\n' s).map (fun l => indentStr ++ ' ' :: ' ' :: l))

mutual

/-- The `lines` list built by source `dumps` (whose result is their
`'\n'.join`): one entry per key — two for a nested dict, whose recursive
serialization `dumps m (indent + 1)` (inlined here as
`joinNL (dumpsLines m (indent + 1))`) is a single multi-line entry.  The
`.list` branch inlines source `_format_list` (see `format_list` below). -/
def dumpsLines : PyDict → Nat → List Str
  | .nil, _ => []
  | .cons k v rest, indent =>
    (match v with
     | .dict m =>
       [indentTxt indent ++ k ++ [':'], joinNL (dumpsLines m (indent + 1))]
     | .list xs =>
       [if allScalar xs then indentTxt indent ++ k ++ ':' :: ' ' :: joinCS (pyStrL xs)
        else joinNL ((indentTxt indent ++ k ++ [':']) ::
          format_list_items xs (indentTxt indent))]
     | .str s =>
       if s.contains '\n' then [format_multiline k s (indentTxt indent)]
       else [indentTxt indent ++ k ++ ':' :: ' ' :: s]
     | v => [indentTxt indent ++ k ++ ':' :: ' ' :: pyStr v]) ++
    dumpsLines rest indent

/-- The per-element lines of source `_format_list`'s complex branch
(dict elements via a recursive `dumps` at `len(indent_str) // 2 + 1`,
other elements as `  - value`). -/
def format_list_items : PyList → Str → List Str
  | .nil, _ => []
  | .cons item rest, indentStr =>
    (match item with
     | .dict m => joinNL (dumpsLines m (indentStr.length / 2 + 1))
     | item => indentStr ++ ' ' :: ' ' :: '-' :: ' ' :: pyStr item) ::
    format_list_items rest indentStr

end

/-- Source `dumps`: the joined serialization of a dict at an indent level. -/
def dumps (data : PyDict) (indent : Nat) : Str :=
  joinNL (dumpsLines data indent)

/-- Source `_format_list`: all-scalar lists on one comma-joined line,
otherwise a `key:` line followed by one entry per element. -/
def format_list (k : Str) (xs : PyList) (indentStr : Str) : Str :=
  if allScalar xs then indentStr ++ k ++ ':' :: ' ' :: joinCS (pyStrL xs)
  else joinNL ((indentStr ++ k ++ [':']) :: format_list_items xs indentStr)

/-! ## Definitions used to state and prove the round-trip and
block-structure properties -/

/-- A key that survives the line pipeline unchanged: nonempty, no
whitespace at either end, and free of `:`, `#` and line breaks. -/
def cleanKeyB (k : Str) : Bool :=
  !k.isEmpty && !(isPySpace (k.headD '.')) && !(isPySpace (k.getLastD '.')) &&
  k.all (fun c => !(c == ':') && !(c == '#') && !(c == '\n'))

/-- A value text that reaches `_parse_value` unchanged from a
`key: value` line: nonempty, no whitespace at either end, free of `#`
and line breaks, and not the multi-line marker `|`. -/
def tokenB (v : Str) : Bool :=
  !v.isEmpty && !(isPySpace (v.headD '.')) && !(isPySpace (v.getLastD '.')) &&
  v.all (fun c => !(c == '#') && !(c == '\n')) && !(v == ['|'])

/-- A float literal that round-trips: accepted by `float()`, containing a
dot or exponent (so the parser's float branch fires), built from
unproblematic characters, and not colliding with the quote, brace,
bracket, boolean or null syntax that the parser checks first.  Every
canonical repr of a finite Python float satisfies this. -/
def floatTokenB (r : Str) : Bool :=
  pyFloatOk r && (r.contains '.' || (lower r).contains 'e') &&
  r.all (fun c => !(isPySpace c) && !(c == ',') && !(c == '#')) &&
  !(r.head? == some '"') && !(r.head? == some (Char.ofNat 39)) &&
  !(r.head? == some '{') && !(r.head? == some '[') && !(r == ['|']) &&
  !(lower r == "yes".data) && !(lower r == "true".data) &&
  !(lower r == "no".data) && !(lower r == "false".data) &&
  !(lower r == "null".data) && !(lower r == "none".data) &&
  !(lower r == "-".data)

/-- A string value that round-trips: nonempty, free of whitespace, commas
and `#`, not the multi-line marker, not brace/bracket-wrapped, and mapped
to itself by the scalar parser (which rules out quote-wrapped, boolean,
null and numeric spellings). -/
def strTokenB (s : Str) : Bool :=
  !s.isEmpty &&
  s.all (fun c => !(isPySpace c) && !(c == ',') && !(c == '#')) &&
  !(s == ['|']) &&
  !(s.head? == some '{' && s.getLast? == some '}') &&
  !(s.head? == some '[' && s.getLast? == some ']') &&
  (parse_simple_value s == PyValue.str s)

/-- A scalar value whose serialized text parses back to it. -/
def safeScalarB : PyValue → Bool
  | .null => true
  | .bool _ => true
  | .int _ => true
  | .float r => floatTokenB r
  | .str s => strTokenB s
  | _ => false

/-- A list element that round-trips: a safe scalar other than `None`
(`None` is not a scalar for `_format_list`, and `- None` lines do not
reparse). -/
def safeElemB : PyValue → Bool
  | .null => false
  | v => safeScalarB v

/-- All elements of a list are safe. -/
def allSafeElem : PyList → Bool
  | .nil => true
  | .cons v tl => safeElemB v && allSafeElem tl

/-- A list value that round-trips: at least two safe elements (one element
serializes without brackets and reparses as a plain scalar), and a first
element whose text does not open an inline object or array. -/
def safeListB : PyList → Bool
  | .cons a (.cons b tl) =>
    safeElemB a && safeElemB b && allSafeElem tl &&
    !((pyStr a).head? == some '{') && !((pyStr a).head? == some '[')
  | _ => false

/-- The value text the serializer writes after `key: ` for a non-dict
value (all-scalar lists are comma-joined, scalars use `str()`). -/
def valText : PyValue → Str
  | .list xs => joinCS (pyStrL xs)
  | v => pyStr v

/-- Whether a key does not occur in a dict. -/
def keyNotIn (k : Str) : PyDict → Bool
  | .nil => true
  | .cons k2 _ tl => !(k == k2) && keyNotIn k tl

mutual

/-- A value that round-trips through serialize-then-parse (nested dicts
must be nonempty with safe, duplicate-free entries). -/
def safeValB : PyValue → Bool
  | .list xs => safeListB xs
  | .dict m =>
    (match m with
     | .nil => false
     | _ => true) && safeEntriesB m
  | v => safeScalarB v

/-- Entries of a dict that round-trip: clean distinct keys, safe values. -/
def safeEntriesB : PyDict → Bool
  | .nil => true
  | .cons k v tl =>
    cleanKeyB k && keyNotIn k tl && safeValB v && safeEntriesB tl

end

/-- Fold of `result[key] = value` over a list of entries. -/
def insertAll : PyDict → PyDict → PyDict
  | acc, .nil => acc
  | acc, .cons k v tl => insertAll (dictInsert acc k v) tl

/-- Concatenation of two entry lists. -/
def dcat : PyDict → PyDict → PyDict
  | .nil, d => d
  | .cons k v tl, d => .cons k v (dcat tl d)

/-- Every key of the first dict is absent from the second. -/
def entriesFresh : PyDict → PyDict → Bool
  | .nil, _ => true
  | .cons k _ tl, pre => keyNotIn k pre && entriesFresh tl pre

/-- Facts the block parser needs about every serialized line of a block at
nesting level `lvl`: not blank, not a comment, indented at least `2 * lvl`,
free of line breaks, and ending in a non-whitespace character. -/
def lineP (lvl : Nat) (l : Str) : Prop :=
  strip l ≠ [] ∧ startsHash (strip l) = false ∧ 2 * lvl ≤ get_indent l ∧
  (∀ c ∈ l, ¬c = '\n') ∧ isPySpace (l.getLastD '.') = false

mutual

/-- The physical lines the serializer emits for one safe entry. -/
def entryLines : Str → PyValue → Nat → List Str
  | k, .dict m, lvl => (indentTxt lvl ++ (k ++ [':'])) :: flatLines m (lvl + 1)
  | k, v, lvl => [indentTxt lvl ++ (k ++ ':' :: ' ' :: valText v)]

/-- The physical lines the serializer emits for a safe dict. -/
def flatLines : PyDict → Nat → List Str
  | .nil, _ => []
  | .cons k v tl, lvl => entryLines k v lvl ++ flatLines tl lvl

end

/-- The `.list` branch of `dumpsLines` is exactly source `_format_list`. -/
theorem dumpsLines_list_eq_format_list (k : Str) (xs : PyList) (rest : PyDict)
    (indent : Nat) :
    dumpsLines (.cons k (.list xs) rest) indent =
      format_list k xs (indentTxt indent) :: dumpsLines rest indent := by
  by_cases h : allScalar xs = true <;>
    simp [dumpsLines, format_list, h]

/-! ## Lemmas about stripping -/

theorem dropWhile_append_of_all {p : Char → Bool} {a : Str} (l : Str)
    (h : ∀ c ∈ a, p c = true) :
    (a ++ l).dropWhile p = l.dropWhile p := by
  induction a with
  | nil => rfl
  | cons c rest ih =>
    have hc : p c = true := h c (by simp)
    simp only [List.cons_append, List.dropWhile_cons, hc, if_true]
    exact ih (fun d hd => h d (by simp [hd]))

theorem dropWhile_append_of_ne_nil {p : Char → Bool} {a : Str} (l : Str)
    (h : a.dropWhile p ≠ []) :
    (a ++ l).dropWhile p = a.dropWhile p ++ l := by
  induction a with
  | nil => simp at h
  | cons c rest ih =>
    by_cases hc : p c = true
    · simp only [List.dropWhile_cons, hc, if_true] at h ⊢
      simp only [List.cons_append, List.dropWhile_cons, hc, if_true]
      exact ih h
    · simp only [List.cons_append, List.dropWhile_cons, hc]
      simp

theorem lstrip_append_of_all {a : Str} (l : Str)
    (h : ∀ c ∈ a, isPySpace c = true) : lstrip (a ++ l) = lstrip l :=
  dropWhile_append_of_all l h

theorem rstrip_append_of_all {a : Str} (l : Str)
    (h : ∀ c ∈ a, isPySpace c = true) : rstrip (l ++ a) = rstrip l := by
  unfold rstrip
  rw [List.reverse_append, dropWhile_append_of_all l.reverse
    (fun c hc => h c (List.mem_reverse.mp hc))]

theorem rstrip_eq_nil_of_all {a : Str} (h : ∀ c ∈ a, isPySpace c = true) :
    rstrip a = [] := by
  unfold rstrip
  have : a.reverse.dropWhile isPySpace = [] :=
    List.dropWhile_eq_nil_iff.mpr (fun c hc => h c (List.mem_reverse.mp hc))
  simp [this]

theorem strip_append_left {a : Str} (l : Str)
    (h : ∀ c ∈ a, isPySpace c = true) : strip (a ++ l) = strip l := by
  unfold strip
  by_cases hl : rstrip l = []
  · have hall : ∀ c ∈ l, isPySpace c = true := by
      intro c hc
      by_contra hws
      have : l.reverse.dropWhile isPySpace ≠ [] := by
        intro hnil
        exact hws (List.dropWhile_eq_nil_iff.mp hnil c (List.mem_reverse.mpr hc))
      exact this (by simpa [rstrip] using congrArg List.reverse hl)
    have : rstrip (a ++ l) = [] :=
      rstrip_eq_nil_of_all (by
        intro c hc
        rcases List.mem_append.mp hc with h1 | h2
        · exact h c h1
        · exact hall c h2)
    rw [this, hl]
  · have hne : l.reverse.dropWhile isPySpace ≠ [] := by
      intro hnil
      exact hl (by simp [rstrip, hnil])
    have hrs : (l.reverse ++ a.reverse).dropWhile isPySpace =
        l.reverse.dropWhile isPySpace ++ a.reverse :=
      dropWhile_append_of_ne_nil a.reverse hne
    have : rstrip (a ++ l) = a ++ rstrip l := by
      simp [rstrip, hrs]
    rw [this, lstrip_append_of_all _ h]

theorem strip_append_right {a : Str} (l : Str)
    (h : ∀ c ∈ a, isPySpace c = true) : strip (l ++ a) = strip l := by
  unfold strip
  rw [rstrip_append_of_all l h]

/-! ## Claim C9: parse is invariant under surrounding whitespace -/

/-- C9: for whitespace-only paddings `p` and `s`,
`parse (p ++ t ++ s) = parse t` — the input is stripped before
line-splitting, and stripping removes exactly such padding. -/
theorem C9_parse_whitespace_invariant (p t s : Str)
    (hp : ∀ c ∈ p, isPySpace c = true) (hs : ∀ c ∈ s, isPySpace c = true) :
    parse (p ++ t ++ s) = parse t := by
  unfold parse
  rw [List.append_assoc, strip_append_left _ hp, strip_append_right _ hs]

/-- C9 witness: concrete whitespace padding around `a: 1`. -/
theorem C9_witness :
    parse (" \n\t".data ++ "a: 1".data ++ "\n  \x0c".data) = parse "a: 1".data :=
  C9_parse_whitespace_invariant _ _ _ (by decide) (by decide)

/-! ## Clean keys and value tokens, and how the block parser consumes
a `key: value` line built from them -/

theorem takeWhile_append_stop {p : Char → Bool} {a : Str} (x : Char) (b : Str)
    (ha : ∀ c ∈ a, p c = true) (hx : p x = false) :
    ((a ++ x :: b).takeWhile p) = a := by
  induction a with
  | nil => simp [List.takeWhile_cons, hx]
  | cons c rest ih =>
    have hc : p c = true := ha c (by simp)
    simp only [List.cons_append, List.takeWhile_cons, hc, if_true]
    rw [ih (fun d hd => ha d (by simp [hd]))]

theorem dropWhile_append_stop {p : Char → Bool} {a : Str} (x : Char) (b : Str)
    (ha : ∀ c ∈ a, p c = true) (hx : p x = false) :
    ((a ++ x :: b).dropWhile p) = x :: b := by
  induction a with
  | nil => simp [List.dropWhile_cons, hx]
  | cons c rest ih =>
    have hc : p c = true := ha c (by simp)
    simp only [List.cons_append, List.dropWhile_cons, hc, if_true]
    exact ih (fun d hd => ha d (by simp [hd]))

theorem takeWhile_eq_self_of_all {p : Char → Bool} {l : Str}
    (h : ∀ c ∈ l, p c = true) : l.takeWhile p = l := by
  induction l with
  | nil => rfl
  | cons c rest ih =>
    have hc : p c = true := h c (by simp)
    simp only [List.takeWhile_cons, hc, if_true]
    rw [ih (fun d hd => h d (by simp [hd]))]

theorem contains_append_cons (a : Str) (x : Char) (b : Str) :
    (a ++ x :: b).contains x = true := by
  induction a with
  | nil => simp
  | cons c rest ih => simp_all

theorem dropWhile_eq_self_of_headD {l : Str}
    (h : isPySpace (l.headD '.') = false) : l.dropWhile isPySpace = l := by
  cases l with
  | nil => rfl
  | cons c rest => simp_all [List.dropWhile_cons]

theorem getLastD_of_ne_nil {α : Type} {v : List α} (hv : v ≠ []) (d d' : α) :
    v.getLastD d = v.getLastD d' := by
  cases h : v.getLast? with
  | none => exact absurd (List.getLast?_eq_none_iff.mp h) hv
  | some x => simp [List.getLastD_eq_getLast?, h]

theorem getLastD_append {α : Type} (x : List α) {v : List α} (hv : v ≠ [])
    (d d' : α) : (x ++ v).getLastD d = v.getLastD d' := by
  cases h : v.getLast? with
  | none => exact absurd (List.getLast?_eq_none_iff.mp h) hv
  | some c => simp [List.getLastD_eq_getLast?, List.getLast?_append, h]

theorem rstrip_eq_self {v : Str} (h : isPySpace (v.getLastD '.') = false) :
    rstrip v = v := by
  unfold rstrip
  cases hl : v.getLast? with
  | none =>
    simp [List.getLast?_eq_none_iff.mp hl]
  | some c =>
    have hrev : v.reverse.head? = some c := by simp [hl]
    cases hr : v.reverse with
    | nil => rw [hr] at hrev; simp at hrev
    | cons a rs =>
      have hac : a = c := by rw [hr] at hrev; simpa using hrev
      have hws : isPySpace a = false := by
        rw [hac]
        rw [List.getLastD_eq_getLast?, hl] at h
        simpa using h
      have hd : List.dropWhile isPySpace (a :: rs) = a :: rs := by
        simp [List.dropWhile_cons, hws]
      rw [hd, ← hr, List.reverse_reverse]

theorem strip_eq_self {v : Str} (h1 : isPySpace (v.headD '.') = false)
    (h2 : isPySpace (v.getLastD '.') = false) : strip v = v := by
  unfold strip lstrip
  rw [rstrip_eq_self h2, dropWhile_eq_self_of_headD h1]

theorem cleanKeyB_spec {k : Str} (h : cleanKeyB k = true) :
    k ≠ [] ∧ isPySpace (k.headD '.') = false ∧
    isPySpace (k.getLastD '.') = false ∧
    ∀ c ∈ k, ¬c = ':' ∧ ¬c = '#' ∧ ¬c = '\n' := by
  unfold cleanKeyB at h
  rw [Bool.and_eq_true, Bool.and_eq_true, Bool.and_eq_true] at h
  obtain ⟨⟨⟨h0, h1⟩, h2⟩, h3⟩ := h
  refine ⟨?_, by simpa using h1, by simpa using h2, ?_⟩
  · intro hnil
    rw [hnil] at h0
    simp at h0
  · intro c hc
    have hc3 := List.all_eq_true.mp h3 c hc
    rw [Bool.and_eq_true, Bool.and_eq_true] at hc3
    obtain ⟨⟨a1, a2⟩, a3⟩ := hc3
    exact ⟨by simpa using a1, by simpa using a2, by simpa using a3⟩

theorem tokenB_spec {v : Str} (h : tokenB v = true) :
    v ≠ [] ∧ isPySpace (v.headD '.') = false ∧
    isPySpace (v.getLastD '.') = false ∧
    (∀ c ∈ v, ¬c = '#' ∧ ¬c = '\n') ∧ v ≠ ['|'] := by
  unfold tokenB at h
  rw [Bool.and_eq_true, Bool.and_eq_true, Bool.and_eq_true,
    Bool.and_eq_true] at h
  obtain ⟨⟨⟨⟨h0, h1⟩, h2⟩, h3⟩, h4⟩ := h
  refine ⟨?_, by simpa using h1, by simpa using h2, ?_, by simpa using h4⟩
  · intro hnil
    rw [hnil] at h0
    simp at h0
  · intro c hc
    have hc3 := List.all_eq_true.mp h3 c hc
    rw [Bool.and_eq_true] at hc3
    obtain ⟨a1, a2⟩ := hc3
    exact ⟨by simpa using a1, by simpa using a2⟩

theorem replicate_space_ws (n : Nat) :
    ∀ c ∈ List.replicate n ' ', isPySpace c = true := by
  intro c hc
  rw [List.eq_of_mem_replicate hc]
  rfl

theorem strip_indent_line (lvl : Nat) {x : Str}
    (hh : isPySpace (x.headD '.') = false)
    (hl : isPySpace (x.getLastD '.') = false) :
    strip (indentTxt lvl ++ x) = x := by
  rw [indentTxt, strip_append_left x (replicate_space_ws (2 * lvl)),
    strip_eq_self hh hl]

theorem get_indent_indent_line (lvl : Nat) {x : Str}
    (hh : isPySpace (x.headD '.') = false) :
    get_indent (indentTxt lvl ++ x) = 2 * lvl := by
  unfold get_indent indentTxt
  rw [dropWhile_append_of_all x (replicate_space_ws (2 * lvl)),
    dropWhile_eq_self_of_headD hh]
  simp

theorem remove_comment_eq_self {l : Str} (h : ∀ c ∈ l, ¬c = '#') :
    remove_inline_comment l = l := by
  unfold remove_inline_comment
  exact takeWhile_eq_self_of_all (fun c hc => by
    simpa using h c hc)

theorem clean_line_kv {k v : Str} (hkall : ∀ c ∈ k, ¬c = ':')
    (hkh : isPySpace (k.headD '.') = false)
    (hkl : isPySpace (k.getLastD '.') = false)
    (hvh : isPySpace (v.headD '.') = false)
    (hvl : isPySpace (v.getLastD '.') = false) :
    split_key_value (k ++ ':' :: ' ' :: v) = (k, v) := by
  unfold split_key_value
  have hp : ∀ c ∈ k, (fun c => !(c == ':')) c = true := by
    intro c hc
    simpa using hkall c hc
  rw [takeWhile_append_stop ':' (' ' :: v) hp (by simp),
    dropWhile_append_stop ':' (' ' :: v) hp (by simp)]
  show (strip k, strip (' ' :: v)) = (k, v)
  rw [strip_eq_self hkh hkl]
  have : strip (' ' :: v) = strip v := @strip_append_left [' '] v (by
    intro c hc
    simp only [List.mem_singleton] at hc
    rw [hc]
    rfl)
  rw [this, strip_eq_self hvh hvl]

theorem clean_line_kv_empty {k : Str} (hkall : ∀ c ∈ k, ¬c = ':')
    (hkh : isPySpace (k.headD '.') = false)
    (hkl : isPySpace (k.getLastD '.') = false) :
    split_key_value (k ++ [':']) = (k, []) := by
  unfold split_key_value
  have hp : ∀ c ∈ k, (fun c => !(c == ':')) c = true := by
    intro c hc
    simpa using hkall c hc
  rw [takeWhile_append_stop ':' [] hp (by simp),
    dropWhile_append_stop ':' [] hp (by simp)]
  simp only [List.drop_succ_cons, List.drop_zero]
  rw [strip_eq_self hkh hkl]
  rfl

theorem headD_append_cons {k : Str} (t : Str) (c : Char)
    (h : isPySpace (k.headD '.') = false) (hc : isPySpace c = false) :
    isPySpace ((k ++ c :: t).headD '.') = false := by
  cases k with
  | nil => simpa using hc
  | cons a k' => simpa using h

theorem parse_block_go_scalar_line (fuel lvl : Nat) (rest : List Str)
    (acc : PyDict) {k v : Str} (hk : cleanKeyB k = true) (hv : tokenB v = true) :
    parse_block_go (fuel + 1) ((indentTxt lvl ++ (k ++ ':' :: ' ' :: v)) :: rest)
        (2 * lvl) acc =
      ((parse_block_go fuel rest (2 * lvl) (dictInsert acc k (parse_value v))).1,
       (parse_block_go fuel rest (2 * lvl) (dictInsert acc k (parse_value v))).2 +
         1) := by
  obtain ⟨hkne, hkh, hkl, hkall⟩ := cleanKeyB_spec hk
  obtain ⟨hvne, hvh, hvl, hvall, hvbar⟩ := tokenB_spec hv
  have hXh : isPySpace ((k ++ ':' :: ' ' :: v).headD '.') = false :=
    headD_append_cons (' ' :: v) ':' hkh (by rfl)
  have hXl : isPySpace ((k ++ ':' :: ' ' :: v).getLastD '.') = false := by
    rw [getLastD_append k (by simp) '.' '.', List.getLastD_cons,
      List.getLastD_cons, getLastD_of_ne_nil hvne ' ' '.']
    exact hvl
  have hXne : k ++ ':' :: ' ' :: v ≠ [] := by simp
  have hstrip : strip (indentTxt lvl ++ (k ++ ':' :: ' ' :: v)) =
      k ++ ':' :: ' ' :: v := strip_indent_line lvl hXh hXl
  have hindent : get_indent (indentTxt lvl ++ (k ++ ':' :: ' ' :: v)) =
      2 * lvl := get_indent_indent_line lvl hXh
  have hhash : startsHash (k ++ ':' :: ' ' :: v) = false := by
    unfold startsHash
    cases k with
    | nil => rfl
    | cons c k' =>
      have : ¬c = '#' := (hkall c (by simp)).2.1
      simpa using this
  have hrc : remove_inline_comment (indentTxt lvl ++ (k ++ ':' :: ' ' :: v)) =
      indentTxt lvl ++ (k ++ ':' :: ' ' :: v) := by
    apply remove_comment_eq_self
    intro c hc
    rcases List.mem_append.mp hc with h1 | h2
    · rw [List.eq_of_mem_replicate h1]
      decide
    · rcases List.mem_append.mp h2 with h3 | h4
      · exact (hkall c h3).2.1
      · rcases h4 with _ | ⟨_, h5⟩
        · decide
        · rcases h5 with _ | ⟨_, h6⟩
          · decide
          · exact (hvall c h6).1
  have hcont : (k ++ ':' :: ' ' :: v).contains ':' = true :=
    contains_append_cons k ':' (' ' :: v)
  have hskv : split_key_value (k ++ ':' :: ' ' :: v) = (k, v) :=
    clean_line_kv (fun c hc => (hkall c hc).1) hkh hkl hvh hvl
  simp only [parse_block_go]
  rw [hrc]
  rw [hstrip]
  rw [if_neg (by
    intro h
    rcases h with h1 | h2
    · exact hXne h1
    · rw [hhash] at h2
      exact Bool.false_ne_true h2)]
  rw [hindent]
  rw [if_neg (lt_irrefl (2 * lvl)), if_neg (lt_irrefl (2 * lvl))]
  rw [hcont]
  rw [if_neg (by simp)]
  rw [hskv]
  rw [if_neg (by simpa using hvbar)]
  rw [if_neg (by simpa using hvne)]

theorem splitChar_no_sep {sep : Char} {l : Str} (h : ∀ c ∈ l, ¬c = sep) :
    splitChar sep l = [l] := by
  induction l with
  | nil => rfl
  | cons c rest ih =>
    have hc : ¬c = sep := h c (by simp)
    rw [splitChar, ih (fun d hd => h d (by simp [hd]))]
    simp [hc]

theorem splitChar_append_sep {sep : Char} {a : Str} (b : Str)
    (ha : ∀ c ∈ a, ¬c = sep) :
    splitChar sep (a ++ sep :: b) = a :: splitChar sep b := by
  induction a with
  | nil => simp [splitChar]
  | cons c rest ih =>
    have hc : ¬c = sep := ha c (by simp)
    rw [List.cons_append, splitChar, ih (fun d hd => ha d (by simp [hd]))]
    simp [hc]

theorem headD_append {α : Type} {a : List α} (b : List α) (ha : a ≠ [])
    (d : α) : (a ++ b).headD d = a.headD d := by
  cases a with
  | nil => exact absurd rfl ha
  | cons c rest => rfl

/-- The characters of a clean `key: value` line are never a line break. -/
theorem clean_line_no_nl {k v : Str} (hk : cleanKeyB k = true)
    (hv : tokenB v = true) : ∀ c ∈ k ++ ':' :: ' ' :: v, ¬c = '\n' := by
  obtain ⟨_, _, _, hkall⟩ := cleanKeyB_spec hk
  obtain ⟨_, _, _, hvall, _⟩ := tokenB_spec hv
  intro c hc
  rcases List.mem_append.mp hc with h1 | h2
  · exact (hkall c h1).2.2
  · rcases h2 with _ | ⟨_, h3⟩
    · decide
    · rcases h3 with _ | ⟨_, h4⟩
      · decide
      · exact (hvall c h4).2

/-- `parse_block_go_scalar_line` at the root indentation level. -/
theorem parse_block_go_scalar_line0 (fuel : Nat) (rest : List Str)
    (acc : PyDict) {k v : Str} (hk : cleanKeyB k = true) (hv : tokenB v = true) :
    parse_block_go (fuel + 1) ((k ++ ':' :: ' ' :: v) :: rest) 0 acc =
      ((parse_block_go fuel rest 0 (dictInsert acc k (parse_value v))).1,
       (parse_block_go fuel rest 0 (dictInsert acc k (parse_value v))).2 +
         1) := by
  have h := parse_block_go_scalar_line fuel 0 rest acc hk hv
  simpa [indentTxt] using h

/-! ## Claim C6: duplicate keys, last write wins -/

/-- C6: in a block holding `k: v1`, then a different key `k2: vm`, then
`k: v2` again at the same level, the later occurrence of `k` wins: the
result binds `k` (at its first position, as CPython dicts do) to the value
parsed from `v2`, and `k2` to its own value. -/
theorem C6_duplicate_key_last_write_wins (k k2 v1 vm v2 : Str)
    (hk : cleanKeyB k = true) (hk2 : cleanKeyB k2 = true) (hne : k2 ≠ k)
    (h1 : tokenB v1 = true) (hm : tokenB vm = true) (h2 : tokenB v2 = true) :
    parse ((k ++ ':' :: ' ' :: v1) ++
        '\n' :: ((k2 ++ ':' :: ' ' :: vm) ++ '\n' :: (k ++ ':' :: ' ' :: v2))) =
      .cons k (parse_value v2) (.cons k2 (parse_value vm) .nil) := by
  obtain ⟨hkne, hkh, hkl, hkall⟩ := cleanKeyB_spec hk
  obtain ⟨hvne, hvh, hvl, hvall, _⟩ := tokenB_spec h2
  have hl1ne : k ++ ':' :: ' ' :: v1 ≠ [] := by simp
  have hh : isPySpace
      (((k ++ ':' :: ' ' :: v1) ++
        '\n' :: ((k2 ++ ':' :: ' ' :: vm) ++
          '\n' :: (k ++ ':' :: ' ' :: v2))).headD '.') = false := by
    rw [headD_append _ hl1ne]
    exact headD_append_cons (' ' :: v1) ':'
      (cleanKeyB_spec hk).2.1 (by rfl)
  have hlast : isPySpace
      (((k ++ ':' :: ' ' :: v1) ++
        '\n' :: ((k2 ++ ':' :: ' ' :: vm) ++
          '\n' :: (k ++ ':' :: ' ' :: v2))).getLastD '.') = false := by
    rw [getLastD_append _ (by simp) '.' '.', List.getLastD_cons,
      getLastD_append _ (by simp) '\n' '.', List.getLastD_cons,
      getLastD_append _ (by simp) '\n' '.', List.getLastD_cons,
      List.getLastD_cons, getLastD_of_ne_nil hvne ' ' '.']
    exact hvl
  have hstrip : strip ((k ++ ':' :: ' ' :: v1) ++
      '\n' :: ((k2 ++ ':' :: ' ' :: vm) ++
        '\n' :: (k ++ ':' :: ' ' :: v2))) =
      (k ++ ':' :: ' ' :: v1) ++
      '\n' :: ((k2 ++ ':' :: ' ' :: vm) ++
        '\n' :: (k ++ ':' :: ' ' :: v2)) := strip_eq_self hh hlast
  have hsplit : splitChar '\n' ((k ++ ':' :: ' ' :: v1) ++
      '\n' :: ((k2 ++ ':' :: ' ' :: vm) ++
        '\n' :: (k ++ ':' :: ' ' :: v2))) =
      [k ++ ':' :: ' ' :: v1, k2 ++ ':' :: ' ' :: vm,
       k ++ ':' :: ' ' :: v2] := by
    rw [splitChar_append_sep _ (clean_line_no_nl hk h1),
      splitChar_append_sep _ (clean_line_no_nl hk2 hm),
      splitChar_no_sep (clean_line_no_nl hk h2)]
  unfold parse parse_block
  rw [hstrip, hsplit]
  simp only [List.length_cons, List.length_nil]
  rw [parse_block_go_scalar_line0 ((0 + 1) + 1) _ _ hk h1]
  dsimp only
  rw [parse_block_go_scalar_line0 (0 + 1) _ _ hk2 hm]
  dsimp only
  rw [parse_block_go_scalar_line0 0 _ _ hk h2]
  dsimp only
  simp only [parse_block_go]
  simp [dictInsert, Ne.symm hne]

/-- C6 witness: `a: 1`, then `b: 7`, then `a: 2` in one block parses to
a map binding `a` (first position) to `Int 2` and `b` to `Int 7`. -/
theorem C6_witness :
    parse "a: 1\nb: 7\na: 2".data =
      .cons "a".data (.int 2) (.cons "b".data (.int 7) .nil) := by
  have h := C6_duplicate_key_last_write_wins "a".data "b".data "1".data
    "7".data "2".data (by decide) (by decide) (by decide) (by decide)
    (by decide) (by decide)
  have e : ("a".data ++ ':' :: ' ' :: "1".data) ++
      '\n' :: (("b".data ++ ':' :: ' ' :: "7".data) ++
        '\n' :: ("a".data ++ ':' :: ' ' :: "2".data)) =
      "a: 1\nb: 7\na: 2".data := by decide
  have e2 : parse_value "2".data = PyValue.int 2 := by decide
  have e7 : parse_value "7".data = PyValue.int 7 := by decide
  rw [e, e2, e7] at h
  exact h

/-! ## Claim C5: parse is total — fuel stability of the block parser -/

theorem parse_nested_go_fst_le (ind : Nat) :
    ∀ L : List Str, (parse_nested_go ind L).1.length ≤ L.length := by
  intro L
  induction L with
  | nil => simp [parse_nested_go]
  | cons l rest ih =>
    rw [parse_nested_go]
    split_ifs with h1 h2
    · dsimp only
      calc (parse_nested_go ind rest).1.length ≤ rest.length := ih
        _ ≤ (l :: rest).length := by simp
    · simp
    · dsimp only
      simpa using ih

theorem parse_block_go_succ :
    ∀ (fuel : Nat) (L : List Str) (s : Nat) (acc : PyDict), L.length ≤ fuel →
    parse_block_go (fuel + 1) L s acc = parse_block_go fuel L s acc := by
  intro fuel
  induction fuel with
  | zero =>
    intro L s acc h
    have : L = [] := by
      cases L with
      | nil => rfl
      | cons a b => simp at h
    rw [this]
    rfl
  | succ f ih =>
    intro L s acc h
    cases L with
    | nil => rfl
    | cons l rest =>
      have hr : rest.length ≤ f := by
        simp only [List.length_cons] at h
        omega
      simp only [parse_block_go]
      split_ifs with h1 h2 h3 h4 h5 h6 h7
      · rw [ih rest s acc hr]
      · rfl
      · rw [ih rest s acc hr]
      · have e : ∀ a2 : PyDict, parse_block_go (f + 1)
            (List.drop (parse_multiline_go (get_indent l) rest).2 rest) s a2 =
            parse_block_go f
              (List.drop (parse_multiline_go (get_indent l) rest).2 rest) s a2 :=
          fun a2 => ih _ s a2 (by rw [List.length_drop]; omega)
        rw [e]
      · have e1 : parse_block_go (f + 1) (parse_nested_go (get_indent l) rest).1
            (get_indent l + 2) PyDict.nil =
            parse_block_go f (parse_nested_go (get_indent l) rest).1
              (get_indent l + 2) PyDict.nil :=
          ih _ _ _ (le_trans (parse_nested_go_fst_le _ rest) hr)
        have e2 : ∀ a2 : PyDict, parse_block_go (f + 1)
            (List.drop (parse_nested_go (get_indent l) rest).2 rest) s a2 =
            parse_block_go f
              (List.drop (parse_nested_go (get_indent l) rest).2 rest) s a2 :=
          fun a2 => ih _ s a2 (by rw [List.length_drop]; omega)
        rw [e1, e2]
      · rw [ih rest s _ hr]
      · rw [ih rest s _ hr]
      · rw [ih rest s acc hr]

theorem parse_block_go_fuel_ge (extra : Nat) :
    ∀ (fuel : Nat) (L : List Str) (s : Nat) (acc : PyDict), L.length ≤ fuel →
    parse_block_go (fuel + extra) L s acc = parse_block_go fuel L s acc := by
  induction extra with
  | zero => intro fuel L s acc _; rfl
  | succ e ih =>
    intro fuel L s acc h
    have : fuel + (e + 1) = (fuel + e) + 1 := by omega
    rw [this, parse_block_go_succ (fuel + e) L s acc (by omega),
      ih fuel L s acc h]

/-- C5: the parser is total and tolerant.  First conjunct: the block
parser's result is independent of any extra fuel beyond the line count —
the recursion genuinely terminates at the canonical fuel `parse` uses, for
every input string.  Second conjunct: a document with a line lacking `:`,
a line with out-of-place indentation, and a duplicate key parses without
rejection — the offending lines are skipped and the duplicate overwritten. -/
theorem C5_parse_total_and_tolerant (text : Str) (extra : Nat) :
    (parse_block_go ((splitChar '\n' (strip text)).length + extra)
        (splitChar '\n' (strip text)) 0 PyDict.nil).1 = parse text ∧
    parse "x\n      y: 1\na: 1\na: 2".data = .cons "a".data (.int 2) .nil := by
  constructor
  · unfold parse parse_block
    rw [parse_block_go_fuel_ge extra _ _ _ _ (le_refl _)]
  · decide

/-! ## Integers print and reparse exactly -/

theorem digitChar_facts :
    ∀ d, d < 10 → (digitChar d).isDigit = true ∧ digitVal (digitChar d) = d ∧
      ((digitChar d) == '_') = false := by decide

theorem natDigits_all_digits :
    ∀ (f n : Nat), ∀ c ∈ natDigits f n, c.isDigit = true := by
  intro f
  induction f with
  | zero =>
    intro n c hc
    cases n <;> simp [natDigits] at hc
  | succ f ih =>
    intro n c hc
    cases n with
    | zero => simp [natDigits] at hc
    | succ m =>
      rw [natDigits] at hc
      rcases List.mem_append.mp hc with h1 | h2
      · exact ih _ c h1
      · rw [List.mem_singleton] at h2
        rw [h2]
        exact (digitChar_facts ((m + 1) % 10) (by omega)).1

theorem digitsToNat_append_digit (xs : Str) (d : Nat) (hd : d < 10) :
    digitsToNat (xs ++ [digitChar d]) = digitsToNat xs * 10 + d := by
  obtain ⟨_, h2, h3⟩ := digitChar_facts d hd
  have h3' : ¬digitChar d = '_' := by simpa using h3
  unfold digitsToNat
  rw [List.foldl_append]
  simp [List.foldl_cons, List.foldl_nil, h3', h2]

theorem natDigits_toNat : ∀ (f n : Nat), n ≤ f →
    digitsToNat (natDigits f n) = n := by
  intro f
  induction f with
  | zero =>
    intro n h
    have : n = 0 := by omega
    subst this
    rfl
  | succ f ih =>
    intro n h
    cases n with
    | zero => rfl
    | succ m =>
      rw [natDigits, digitsToNat_append_digit _ _ (by omega),
        ih ((m + 1) / 10) (by omega)]
      omega

theorem natDigits_ne_nil (f n : Nat) (h1 : 1 ≤ n) (h2 : n ≤ f) :
    natDigits f n ≠ [] := by
  cases f with
  | zero => omega
  | succ f' =>
    cases n with
    | zero => omega
    | succ m =>
      rw [natDigits]
      simp

theorem natStr_ne_nil (n : Nat) : natStr n ≠ [] := by
  unfold natStr
  split_ifs with h
  · simp
  · exact natDigits_ne_nil n n (by omega) (le_refl n)

theorem natStr_all_digits (n : Nat) : ∀ c ∈ natStr n, c.isDigit = true := by
  intro c hc
  unfold natStr at hc
  split_ifs at hc with h
  · rw [List.mem_singleton] at hc
    rw [hc]
    decide
  · exact natDigits_all_digits n n c hc

theorem digitGroupOk_of_digits :
    ∀ (l : Str), l ≠ [] → (∀ c ∈ l, c.isDigit = true) →
    digitGroupOk l = true := by
  intro l
  induction l with
  | nil => intro h _; exact absurd rfl h
  | cons c rest ih =>
    intro _ hall
    cases rest with
    | nil => simpa [digitGroupOk] using hall c (by simp)
    | cons d rest2 =>
      have hc := hall c (by simp)
      have hd := hall d (by simp)
      have hdu : (d == '_') = false := by
        cases hbe : d == '_'
        · rfl
        · have hde : d = '_' := by simpa using hbe
          rw [hde] at hd
          exact absurd hd (by decide)
      rw [digitGroupOk, hdu]
      simp only [Bool.false_eq_true, if_false, hc, Bool.true_and]
      exact ih (by simp) (fun e he => hall e (by simp [he]))

theorem digitsToNat_natStr (n : Nat) : digitsToNat (natStr n) = n := by
  unfold natStr
  split_ifs with h
  · rw [h]
    rfl
  · exact natDigits_toNat n n (le_refl n)

theorem pyIntParse_neg_head (l : Str) :
    pyIntParse ('-' :: l) =
      if digitGroupOk l then some (-(Int.ofNat (digitsToNat l))) else none :=
  rfl

theorem pyIntParse_digit_head {c : Char} (cs : Str) (h : c.isDigit = true) :
    pyIntParse (c :: cs) =
      if digitGroupOk (c :: cs) then
        some (Int.ofNat (digitsToNat (c :: cs)))
      else none := by
  have h1 : ¬c = '+' := by
    intro he
    rw [he] at h
    exact absurd h (by decide)
  have h2 : ¬c = '-' := by
    intro he
    rw [he] at h
    exact absurd h (by decide)
  rw [pyIntParse.eq_def]
  split
  · rename_i heq
    injection heq with hc _
    exact absurd hc h1
  · rename_i heq
    injection heq with hc _
    exact absurd hc h2
  · rfl

theorem intStr_ne_nil (n : Int) : intStr n ≠ [] := by
  unfold intStr
  split_ifs with h
  · simp
  · exact natStr_ne_nil _

theorem intStr_chars (n : Int) :
    ∀ c ∈ intStr n, c.isDigit = true ∨ c = '-' := by
  intro c hc
  unfold intStr at hc
  split_ifs at hc with h
  · rcases List.mem_cons.mp hc with h1 | h2
    · right
      exact h1
    · left
      exact natStr_all_digits _ c h2
  · left
    exact natStr_all_digits _ c hc

theorem intStr_parse (n : Int) : pyIntParse (intStr n) = some n := by
  unfold intStr
  split_ifs with h
  · rw [pyIntParse_neg_head,
      digitGroupOk_of_digits _ (natStr_ne_nil _) (natStr_all_digits _)]
    simp only [if_true]
    rw [digitsToNat_natStr]
    congr 1
    rw [Int.ofNat_eq_natCast]
    omega
  · obtain ⟨c, cs, hcons⟩ : ∃ c cs, natStr n.toNat = c :: cs := by
      cases hn : natStr n.toNat with
      | nil => exact absurd hn (natStr_ne_nil n.toNat)
      | cons c cs => exact ⟨c, cs, rfl⟩
    have hcd : c.isDigit = true := by
      apply natStr_all_digits n.toNat
      rw [hcons]
      simp
    rw [hcons, pyIntParse_digit_head cs hcd, ← hcons,
      digitGroupOk_of_digits _ (natStr_ne_nil _) (natStr_all_digits _)]
    simp only [if_true]
    rw [digitsToNat_natStr]
    congr 1
    rw [Int.ofNat_eq_natCast]
    omega

/-! ## Safe scalars reparse to themselves -/

theorem toLower_of_isDigit {c : Char} (h : c.isDigit = true) :
    c.toLower = c := by
  have hn : 48 ≤ c.toNat ∧ c.toNat ≤ 57 := by
    simp only [Char.isDigit, Bool.and_eq_true, decide_eq_true_eq] at h
    exact h
  unfold Char.toLower
  rw [if_neg]
  omega

theorem not_ws_of_digit {c : Char} (h : c.isDigit = true) :
    isPySpace c = false := by
  cases hb : isPySpace c
  · rfl
  · exfalso
    have hd : c ≠ ' ' ∧ c ≠ '\t' ∧ c ≠ '\n' ∧ c ≠ '\x0d' ∧ c ≠ '\x0b' ∧
        c ≠ '\x0c' := by
      refine ⟨?_, ?_, ?_, ?_, ?_, ?_⟩ <;>
        (intro he; rw [he] at h; exact absurd h (by decide))
    simp [isPySpace, hd.1, hd.2.1, hd.2.2.1, hd.2.2.2.1, hd.2.2.2.2.1,
      hd.2.2.2.2.2] at hb

theorem mem_of_contains {l : Str} {a : Char} (h : l.contains a = true) :
    a ∈ l := by
  simpa using h

theorem contains_false_of_not_mem {l : Str} {a : Char} (h : a ∉ l) :
    l.contains a = false := by
  cases hb : l.contains a
  · rfl
  · exact absurd (mem_of_contains hb) h

theorem headD_mem {α : Type} {l : List α} (h : l ≠ []) (d : α) :
    l.headD d ∈ l := by
  cases l with
  | nil => exact absurd rfl h
  | cons c rest => simp

theorem getLastD_mem {α : Type} {l : List α} (h : l ≠ []) (d : α) :
    l.getLastD d ∈ l := by
  cases hx : l.getLast? with
  | none => exact absurd (List.getLast?_eq_none_iff.mp hx) h
  | some x =>
    rw [List.getLastD_eq_getLast?, hx]
    exact List.mem_of_getLast?_eq_some hx

theorem lower_intStr (n : Int) : lower (intStr n) = intStr n := by
  unfold lower
  have hfix : ∀ c ∈ intStr n, Char.toLower c = c := by
    intro c hc
    rcases intStr_chars n c hc with h1 | h1
    · exact toLower_of_isDigit h1
    · rw [h1]
      decide
  calc List.map Char.toLower (intStr n)
      = List.map id (intStr n) := List.map_congr_left hfix
    _ = intStr n := List.map_id _

theorem intStr_ne_dash (n : Int) : intStr n ≠ "-".data := by
  unfold intStr
  split_ifs with h
  · intro he
    injection he with _ h2
    exact absurd h2 (natStr_ne_nil _)
  · intro he
    have : '-' ∈ natStr n.toNat := by
      rw [he]
      simp
    have := natStr_all_digits n.toNat '-' this
    exact absurd this (by decide)

theorem intStr_not_mem {c : Char} (n : Int) (hd : c.isDigit = false)
    (hm : ¬c = '-') : c ∉ intStr n := by
  intro hmem
  rcases intStr_chars n c hmem with h1 | h1
  · rw [h1] at hd
    exact absurd hd (by simp)
  · exact hm h1

theorem intStr_strip (n : Int) : strip (intStr n) = intStr n := by
  have hne := intStr_ne_nil n
  apply strip_eq_self
  · rcases intStr_chars n _ (headD_mem hne '.') with h1 | h1
    · exact not_ws_of_digit h1
    · rw [h1]
      rfl
  · rcases intStr_chars n _ (getLastD_mem hne '.') with h1 | h1
    · exact not_ws_of_digit h1
    · rw [h1]
      rfl

theorem intStr_head_ne {c0 : Char} (n : Int) (hd : c0.isDigit = false)
    (hm : ¬c0 = '-') : ¬(intStr n).head? = some c0 := by
  intro h
  have : c0 ∈ intStr n := List.mem_of_mem_head? (by rw [h]; rfl)
  exact intStr_not_mem n hd hm this

theorem intStr_ne_lit (n : Int) {lit : Str} (c0 : Char) (hc0 : c0 ∈ lit)
    (hd : c0.isDigit = false) (hm : ¬c0 = '-') : ¬intStr n = lit := by
  intro he
  have : c0 ∈ intStr n := by rw [he]; exact hc0
  exact intStr_not_mem n hd hm this

theorem parse_simple_value_intStr (n : Int) :
    parse_simple_value (intStr n) = .int n := by
  unfold parse_simple_value
  simp only [intStr_strip]
  rw [if_neg (by
    intro h
    rcases h with ⟨hh, _⟩ | ⟨hh, _⟩
    · exact intStr_head_ne n (by decide) (by decide) hh
    · exact intStr_head_ne n (by decide) (by decide) hh)]
  rw [lower_intStr]
  rw [if_neg (by
    intro h
    rcases h with h | h
    · exact intStr_ne_lit n 'y' (by decide) (by decide) (by decide) h
    · exact intStr_ne_lit n 'u' (by decide) (by decide) (by decide) h)]
  rw [if_neg (by
    intro h
    rcases h with h | h
    · exact intStr_ne_lit n 'o' (by decide) (by decide) (by decide) h
    · exact intStr_ne_lit n 'f' (by decide) (by decide) (by decide) h)]
  rw [if_neg (by
    intro h
    rcases h with h | h | h
    · exact intStr_ne_lit n 'u' (by decide) (by decide) (by decide) h
    · exact intStr_ne_lit n 'o' (by decide) (by decide) (by decide) h
    · exact intStr_ne_dash n h)]
  have hdot : (intStr n).contains '.' = false :=
    contains_false_of_not_mem (intStr_not_mem n (by decide) (by decide))
  have he : (intStr n).contains 'e' = false :=
    contains_false_of_not_mem (intStr_not_mem n (by decide) (by decide))
  rw [hdot, he]
  simp only [Bool.or_self, Bool.false_eq_true, if_false]
  rw [intStr_parse n]

theorem parse_value_intStr (n : Int) : parse_value (intStr n) = .int n := by
  unfold parse_value
  simp only [intStr_strip]
  rw [if_neg (by
    intro h
    exact intStr_head_ne n (by decide) (by decide) h.1)]
  rw [if_neg (by
    intro h
    exact intStr_head_ne n (by decide) (by decide) h.1)]
  have hc : (intStr n).contains ',' = false :=
    contains_false_of_not_mem (intStr_not_mem n (by decide) (by decide))
  have hs : (intStr n).contains ' ' = false :=
    contains_false_of_not_mem (intStr_not_mem n (by decide) (by decide))
  rw [hc, hs]
  simp only [Bool.false_and, Bool.or_self, Bool.false_or, Bool.false_eq_true,
    if_false, Bool.and_false]
  exact parse_simple_value_intStr n

theorem floatTokenB_spec {r : Str} (h : floatTokenB r = true) :
    pyFloatOk r = true ∧ (r.contains '.' || (lower r).contains 'e') = true ∧
    (∀ c ∈ r, isPySpace c = false ∧ ¬c = ',' ∧ ¬c = '#') ∧
    ¬r.head? = some '"' ∧ ¬r.head? = some (Char.ofNat 39) ∧
    ¬r.head? = some '{' ∧ ¬r.head? = some '[' ∧ ¬r = ['|'] ∧
    ¬lower r = "yes".data ∧ ¬lower r = "true".data ∧ ¬lower r = "no".data ∧
    ¬lower r = "false".data ∧ ¬lower r = "null".data ∧
    ¬lower r = "none".data ∧ ¬lower r = "-".data := by
  unfold floatTokenB at h
  rw [Bool.and_eq_true, Bool.and_eq_true, Bool.and_eq_true, Bool.and_eq_true,
    Bool.and_eq_true, Bool.and_eq_true, Bool.and_eq_true, Bool.and_eq_true,
    Bool.and_eq_true, Bool.and_eq_true, Bool.and_eq_true, Bool.and_eq_true,
    Bool.and_eq_true, Bool.and_eq_true] at h
  obtain ⟨⟨⟨⟨⟨⟨⟨⟨⟨⟨⟨⟨⟨⟨hok, hde⟩, hall⟩, hq1⟩, hq2⟩, hbr⟩, hbk⟩, hbar⟩,
    hy⟩, ht⟩, hn⟩, hf⟩, hnl⟩, hno⟩, hdash⟩ := h
  refine ⟨hok, hde, ?_, by simpa using hq1, by simpa using hq2,
    by simpa using hbr, by simpa using hbk, by simpa using hbar,
    by simpa using hy, by simpa using ht, by simpa using hn,
    by simpa using hf, by simpa using hnl, by simpa using hno,
    by simpa using hdash⟩
  intro c hc
  have hc3 := List.all_eq_true.mp hall c hc
  rw [Bool.and_eq_true, Bool.and_eq_true] at hc3
  obtain ⟨⟨a1, a2⟩, a3⟩ := hc3
  exact ⟨by simpa using a1, by simpa using a2, by simpa using a3⟩

theorem float_ne_nil {r : Str} (hok : pyFloatOk r = true) : r ≠ [] := by
  intro he
  rw [he] at hok
  exact absurd hok (by decide)

theorem parse_simple_value_float {r : Str} (h : floatTokenB r = true) :
    parse_simple_value r = .float r := by
  obtain ⟨hok, hde, hall, hq1, hq2, _, _, _, hy, ht, hn, hf, hnl, hno,
    hdash⟩ := floatTokenB_spec h
  have hne : r ≠ [] := float_ne_nil hok
  have hstr : strip r = r := strip_eq_self
    (hall _ (headD_mem hne '.')).1 (hall _ (getLastD_mem hne '.')).1
  unfold parse_simple_value
  simp only [hstr]
  rw [if_neg (by
    intro hcond
    rcases hcond with ⟨hh, _⟩ | ⟨hh, _⟩
    · exact hq1 hh
    · exact hq2 hh)]
  rw [if_neg (by
    intro hcond
    rcases hcond with hc | hc
    · exact hy hc
    · exact ht hc)]
  rw [if_neg (by
    intro hcond
    rcases hcond with hc | hc
    · exact hn hc
    · exact hf hc)]
  rw [if_neg (by
    intro hcond
    rcases hcond with hc | hc | hc
    · exact hnl hc
    · exact hno hc
    · exact hdash hc)]
  rw [if_pos hde, if_pos hok]

theorem parse_value_float {r : Str} (h : floatTokenB r = true) :
    parse_value r = .float r := by
  obtain ⟨hok, _, hall, _, _, hbr, hbk, _, _, _, _, _, _, _, _⟩ :=
    floatTokenB_spec h
  have hne : r ≠ [] := float_ne_nil hok
  have hstr : strip r = r := strip_eq_self
    (hall _ (headD_mem hne '.')).1 (hall _ (getLastD_mem hne '.')).1
  unfold parse_value
  simp only [hstr]
  rw [if_neg (fun hcond => hbr hcond.1), if_neg (fun hcond => hbk hcond.1)]
  have hc : r.contains ',' = false :=
    contains_false_of_not_mem (fun hm => (hall ',' hm).2.1 rfl)
  have hs : r.contains ' ' = false :=
    contains_false_of_not_mem (fun hm => by
      have := (hall ' ' hm).1
      exact absurd this (by decide))
  rw [hc, hs]
  simp only [Bool.false_and, Bool.or_self, Bool.false_or, Bool.false_eq_true,
    if_false, Bool.and_false]
  exact parse_simple_value_float h

theorem strTokenB_spec {s : Str} (h : strTokenB s = true) :
    s ≠ [] ∧ (∀ c ∈ s, isPySpace c = false ∧ ¬c = ',' ∧ ¬c = '#') ∧
    ¬s = ['|'] ∧ ¬(s.head? = some '{' ∧ s.getLast? = some '}') ∧
    ¬(s.head? = some '[' ∧ s.getLast? = some ']') ∧
    parse_simple_value s = .str s := by
  unfold strTokenB at h
  rw [Bool.and_eq_true, Bool.and_eq_true, Bool.and_eq_true, Bool.and_eq_true,
    Bool.and_eq_true] at h
  obtain ⟨⟨⟨⟨⟨h0, hall⟩, hbar⟩, hbr⟩, hbk⟩, hpv⟩ := h
  refine ⟨?_, ?_, by simpa using hbar, ?_, ?_, by simpa using hpv⟩
  · intro hnil
    rw [hnil] at h0
    simp at h0
  · intro c hc
    have hc3 := List.all_eq_true.mp hall c hc
    rw [Bool.and_eq_true, Bool.and_eq_true] at hc3
    obtain ⟨⟨a1, a2⟩, a3⟩ := hc3
    exact ⟨by simpa using a1, by simpa using a2, by simpa using a3⟩
  · intro hcond
    have : (s.head? == some '{' && s.getLast? == some '}') = true := by
      rw [Bool.and_eq_true]
      constructor
      · simpa using hcond.1
      · simpa using hcond.2
    rw [this] at hbr
    simp at hbr
  · intro hcond
    have : (s.head? == some '[' && s.getLast? == some ']') = true := by
      rw [Bool.and_eq_true]
      constructor
      · simpa using hcond.1
      · simpa using hcond.2
    rw [this] at hbk
    simp at hbk

theorem parse_value_str {s : Str} (h : strTokenB s = true) :
    parse_value s = .str s := by
  obtain ⟨hne, hall, _, hbr, hbk, hpv⟩ := strTokenB_spec h
  have hstr : strip s = s := strip_eq_self
    (hall _ (headD_mem hne '.')).1 (hall _ (getLastD_mem hne '.')).1
  unfold parse_value
  simp only [hstr]
  rw [if_neg hbr, if_neg hbk]
  have hc : s.contains ',' = false :=
    contains_false_of_not_mem (fun hm => (hall ',' hm).2.1 rfl)
  have hs : s.contains ' ' = false :=
    contains_false_of_not_mem (fun hm => by
      have := (hall ' ' hm).1
      exact absurd this (by decide))
  rw [hc, hs]
  simp only [Bool.false_and, Bool.or_self, Bool.false_or, Bool.false_eq_true,
    if_false, Bool.and_false]
  exact hpv

/-! ## Safe lists reparse to themselves -/

theorem sepSplit_sep_cons {c : Char} (hc : isSep c = true) (l : Str) :
    sepSplit (c :: l) = sepSplit l := by
  cases l with
  | nil => simp [sepSplit, hc]
  | cons d rest => simp [sepSplit, hc]

theorem sepSplit_no_sep :
    ∀ {t : Str}, t ≠ [] → (∀ c ∈ t, isSep c = false) → sepSplit t = [t] := by
  intro t
  induction t with
  | nil => intro h _; exact absurd rfl h
  | cons c rest ih =>
    intro _ hall
    have hc : isSep c = false := hall c (by simp)
    cases rest with
    | nil => simp [sepSplit, hc]
    | cons d rest2 =>
      have hd : isSep d = false := hall d (by simp)
      rw [sepSplit, ih (by simp) (fun e he => hall e (by simp [he]))]
      simp [hc, hd]

theorem sepSplit_token_prefix :
    ∀ {t : Str}, t ≠ [] → (∀ c ∈ t, isSep c = false) → ∀ (w : Str),
    sepSplit (t ++ ',' :: ' ' :: w) = t :: sepSplit w := by
  intro t
  induction t with
  | nil => intro h _; exact absurd rfl h
  | cons c rest ih =>
    intro _ hall w
    have hc : isSep c = false := hall c (by simp)
    cases rest with
    | nil =>
      show sepSplit (c :: ',' :: ' ' :: w) = [c] :: sepSplit w
      rw [sepSplit,
        sepSplit_sep_cons (show isSep ',' = true from by decide),
        sepSplit_sep_cons (show isSep ' ' = true from by decide)]
      simp [hc, show isSep ',' = true from by decide]
    | cons d rest2 =>
      have hd : isSep d = false := hall d (by simp)
      show sepSplit (c :: ((d :: rest2) ++ ',' :: ' ' :: w)) =
        (c :: d :: rest2) :: sepSplit w
      rw [List.cons_append, sepSplit]
      have hih : sepSplit (d :: (rest2 ++ ',' :: ' ' :: w)) =
          (d :: rest2) :: sepSplit w := by
        rw [← List.cons_append]
        exact ih (by simp) (fun e he => hall e (by simp [he])) w
      rw [hih]
      simp [hc, hd]

theorem joinCS_cons_ne (t : Str) {ts : List Str} (h : ts ≠ []) :
    joinCS (t :: ts) = t ++ ',' :: ' ' :: joinCS ts := by
  cases ts with
  | nil => exact absurd rfl h
  | cons a b => rfl

theorem sepSplit_joinCS :
    ∀ (ts : List Str), ts ≠ [] →
    (∀ t ∈ ts, t ≠ [] ∧ ∀ c ∈ t, isSep c = false) →
    sepSplit (joinCS ts) = ts := by
  intro ts
  induction ts with
  | nil => intro h _; exact absurd rfl h
  | cons t rest ih =>
    intro _ hall
    obtain ⟨htne, htc⟩ := hall t (by simp)
    cases rest with
    | nil => exact sepSplit_no_sep htne htc
    | cons u rest2 =>
      rw [joinCS_cons_ne t (by simp), sepSplit_token_prefix htne htc,
        ih (by simp) (fun e he => hall e (by simp [he]))]

theorem elem_facts {v : PyValue} (h : safeElemB v = true) :
    pyStr v ≠ [] ∧
    (∀ c ∈ pyStr v, isSep c = false ∧ ¬c = '#' ∧ ¬c = '\n') ∧
    parse_simple_value (pyStr v) = v := by
  cases v with
  | null => exact absurd h (by simp [safeElemB])
  | list xs => exact absurd h (by simp [safeElemB, safeScalarB])
  | dict m => exact absurd h (by simp [safeElemB, safeScalarB])
  | bool b => cases b <;> exact ⟨by decide, by decide, by decide⟩
  | int n =>
    refine ⟨intStr_ne_nil n, ?_, parse_simple_value_intStr n⟩
    intro c hc
    have hch := intStr_chars n c hc
    refine ⟨?_, ?_, ?_⟩
    · unfold isSep
      rcases hch with h1 | h1
      · rw [not_ws_of_digit h1]
        have : (c == ',') = false := by
          cases hb : c == ','
          · rfl
          · have : c = ',' := by simpa using hb
            rw [this] at h1
            exact absurd h1 (by decide)
        rw [this]
        rfl
      · rw [h1]
        rfl
    · rcases hch with h1 | h1
      · intro he
        rw [he] at h1
        exact absurd h1 (by decide)
      · rw [h1]
        decide
    · rcases hch with h1 | h1
      · intro he
        rw [he] at h1
        exact absurd h1 (by decide)
      · rw [h1]
        decide
  | float r =>
    have hf : floatTokenB r = true := by simpa [safeElemB, safeScalarB] using h
    obtain ⟨hok, _, hall, _⟩ := floatTokenB_spec hf
    refine ⟨float_ne_nil hok, ?_, parse_simple_value_float hf⟩
    intro c hc
    obtain ⟨a1, a2, a3⟩ := hall c hc
    refine ⟨?_, a3, ?_⟩
    · unfold isSep
      rw [a1]
      have : (c == ',') = false := by
        cases hb : c == ','
        · rfl
        · exact absurd (by simpa using hb) a2
      rw [this]
      rfl
    · intro he
      rw [he] at a1
      exact absurd a1 (by decide)
  | str s =>
    have hs : strTokenB s = true := by simpa [safeElemB, safeScalarB] using h
    obtain ⟨hne, hall, _, _, _, hpv⟩ := strTokenB_spec hs
    refine ⟨hne, ?_, hpv⟩
    intro c hc
    obtain ⟨a1, a2, a3⟩ := hall c hc
    refine ⟨?_, a3, ?_⟩
    · unfold isSep
      rw [a1]
      have : (c == ',') = false := by
        cases hb : c == ','
        · rfl
        · exact absurd (by simpa using hb) a2
      rw [this]
      rfl
    · intro he
      rw [he] at a1
      exact absurd a1 (by decide)

theorem list_elems_roundtrip :
    ∀ (xs : PyList), allSafeElem xs = true →
    PyList.ofList ((pyStrL xs).map parse_simple_value) = xs
  | .nil, _ => rfl
  | .cons v tl, h => by
    rw [allSafeElem, Bool.and_eq_true] at h
    rw [pyStrL, List.map_cons, PyList.ofList, (elem_facts h.1).2.2,
      list_elems_roundtrip tl h.2]

theorem head?_append_ne {α : Type} {a : List α} (b : List α) (ha : a ≠ []) :
    (a ++ b).head? = a.head? := by
  cases a with
  | nil => exact absurd rfl ha
  | cons c rest => rfl

theorem joinCS_ne_nil : ∀ (ts : List Str), ts ≠ [] → (∀ t ∈ ts, t ≠ []) →
    joinCS ts ≠ [] := by
  intro ts h0 h1
  cases ts with
  | nil => exact absurd rfl h0
  | cons t rest =>
    cases rest with
    | nil => exact h1 t (by simp)
    | cons u rest2 =>
      rw [joinCS_cons_ne t (by simp)]
      intro he
      have := h1 t (by simp)
      cases ht : t with
      | nil => exact this ht
      | cons x xs => rw [ht] at he; simp at he

theorem joinCS_getLastD : ∀ (ts : List Str), ts ≠ [] → (∀ t ∈ ts, t ≠ []) →
    (joinCS ts).getLastD '.' = (ts.getLastD []).getLastD '.' := by
  intro ts
  induction ts with
  | nil => intro h _; exact absurd rfl h
  | cons t rest ih =>
    intro _ hall
    cases rest with
    | nil => simp [joinCS, List.getLastD_cons]
    | cons u rest2 =>
      rw [joinCS_cons_ne t (by simp),
        getLastD_append t (by simp) '.' '.',
        List.getLastD_cons, List.getLastD_cons,
        getLastD_of_ne_nil
          (joinCS_ne_nil (u :: rest2) (by simp)
            (fun e he => hall e (by simp [he]))) ' ' '.',
        ih (by simp) (fun e he => hall e (by simp [he]))]
      conv_rhs => rw [List.getLastD_cons]
      rw [getLastD_of_ne_nil (show (u :: rest2 : List Str) ≠ [] from by simp)
        t []]

theorem joinCS_mem : ∀ (ts : List Str) (c : Char), c ∈ joinCS ts →
    (∃ t ∈ ts, c ∈ t) ∨ c = ',' ∨ c = ' ' := by
  intro ts
  induction ts with
  | nil => intro c hc; simp [joinCS] at hc
  | cons t rest ih =>
    intro c hc
    cases rest with
    | nil => exact Or.inl ⟨t, by simp, hc⟩
    | cons u rest2 =>
      rw [joinCS_cons_ne t (by simp)] at hc
      rcases List.mem_append.mp hc with h1 | h2
      · exact Or.inl ⟨t, by simp, h1⟩
      · rcases h2 with _ | ⟨_, h3⟩
        · exact Or.inr (Or.inl rfl)
        · rcases h3 with _ | ⟨_, h4⟩
          · exact Or.inr (Or.inr rfl)
          · rcases ih c h4 with ⟨t2, ht2, hc2⟩ | h5
            · exact Or.inl ⟨t2, by simp [ht2], hc2⟩
            · exact Or.inr h5

theorem pyStrL_facts : ∀ (xs : PyList), allSafeElem xs = true →
    ∀ t ∈ pyStrL xs, t ≠ [] ∧
      ∀ c ∈ t, isSep c = false ∧ ¬c = '#' ∧ ¬c = '\n'
  | .nil, _ => by simp [pyStrL]
  | .cons v tl, h => by
    rw [allSafeElem, Bool.and_eq_true] at h
    intro t ht
    rw [pyStrL] at ht
    rcases List.mem_cons.mp ht with h1 | h2
    · subst h1
      obtain ⟨a, b, _⟩ := elem_facts h.1
      exact ⟨a, b⟩
    · exact pyStrL_facts tl h.2 t h2

theorem isSep_false_not_ws {c : Char} (h : isSep c = false) :
    isPySpace c = false := by
  unfold isSep at h
  rw [Bool.or_eq_false_iff] at h
  exact h.2

theorem parse_value_list {xs : PyList} (h : safeListB xs = true) :
    parse_value (joinCS (pyStrL xs)) = .list xs := by
  cases xs with
  | nil => exact absurd h (by simp [safeListB])
  | cons a tl0 =>
    cases tl0 with
    | nil => exact absurd h (by simp [safeListB])
    | cons b tl =>
      unfold safeListB at h
      rw [Bool.and_eq_true, Bool.and_eq_true, Bool.and_eq_true,
        Bool.and_eq_true] at h
      obtain ⟨⟨⟨⟨ha, hb⟩, htl⟩, hbr⟩, hbk⟩ := h
      have hallsafe : allSafeElem (.cons a (.cons b tl)) = true := by
        rw [allSafeElem, allSafeElem, Bool.and_eq_true, Bool.and_eq_true]
        exact ⟨ha, hb, htl⟩
      have hts : ∀ t ∈ pyStrL (PyList.cons a (.cons b tl)), t ≠ [] ∧
          ∀ c ∈ t, isSep c = false ∧ ¬c = '#' ∧ ¬c = '\n' :=
        pyStrL_facts _ hallsafe
      have htsne : ∀ t ∈ pyStrL (PyList.cons a (.cons b tl)), t ≠ [] :=
        fun t ht => (hts t ht).1
      have hane : pyStr a ≠ [] := (hts (pyStr a) (by rw [pyStrL]; simp)).1
      have hw : joinCS (pyStrL (PyList.cons a (.cons b tl))) =
          pyStr a ++ ',' :: ' ' :: joinCS (pyStrL (PyList.cons b tl)) := by
        rw [pyStrL, joinCS_cons_ne _ (by rw [pyStrL]; simp)]
      have hwne : joinCS (pyStrL (PyList.cons a (.cons b tl))) ≠ [] :=
        joinCS_ne_nil _ (by rw [pyStrL]; simp) htsne
      have hwh : isPySpace
          ((joinCS (pyStrL (PyList.cons a (.cons b tl)))).headD '.') =
          false := by
        rw [hw, headD_append _ hane]
        have hm := headD_mem hane '.'
        exact isSep_false_not_ws
          ((hts (pyStr a) (by rw [pyStrL]; simp)).2 _ hm).1
      have hwl : isPySpace
          ((joinCS (pyStrL (PyList.cons a (.cons b tl)))).getLastD '.') =
          false := by
        rw [joinCS_getLastD _ (by rw [pyStrL]; simp) htsne]
        have hlm : (pyStrL (PyList.cons a (.cons b tl))).getLastD [] ∈
            pyStrL (PyList.cons a (.cons b tl)) :=
          getLastD_mem (by rw [pyStrL]; simp) []
        obtain ⟨hne2, hch⟩ := hts _ hlm
        exact isSep_false_not_ws (hch _ (getLastD_mem hne2 '.')).1
      have hstr : strip (joinCS (pyStrL (PyList.cons a (.cons b tl)))) =
          joinCS (pyStrL (PyList.cons a (.cons b tl))) :=
        strip_eq_self hwh hwl
      have hhead : (joinCS (pyStrL (PyList.cons a (.cons b tl)))).head? =
          (pyStr a).head? := by
        rw [hw]
        exact head?_append_ne _ hane
      have hcomma : (joinCS (pyStrL (PyList.cons a (.cons b tl)))).contains
          ',' = true := by
        rw [hw]
        exact contains_append_cons _ ',' _
      unfold parse_value
      simp only [hstr]
      rw [if_neg (by
        intro hcond
        rw [hhead] at hcond
        have : ((pyStr a).head? == some '{') = true := by
          simpa using hcond.1
        rw [this] at hbr
        simp at hbr)]
      rw [if_neg (by
        intro hcond
        rw [hhead] at hcond
        have : ((pyStr a).head? == some '[') = true := by
          simpa using hcond.1
        rw [this] at hbk
        simp at hbk)]
      rw [if_pos (by rw [hcomma]; simp)]
      rw [sepSplit_joinCS _ (by rw [pyStrL]; simp)
        (fun t ht => ⟨(hts t ht).1, fun c hc => ((hts t ht).2 c hc).1⟩)]
      rw [list_elems_roundtrip _ hallsafe]

theorem tokenB_intro {v : Str} (h0 : v ≠ [])
    (h1 : isPySpace (v.headD '.') = false)
    (h2 : isPySpace (v.getLastD '.') = false)
    (h3 : ∀ c ∈ v, ¬c = '#' ∧ ¬c = '\n') (h4 : v ≠ ['|']) :
    tokenB v = true := by
  unfold tokenB
  rw [Bool.and_eq_true, Bool.and_eq_true, Bool.and_eq_true, Bool.and_eq_true]
  refine ⟨⟨⟨⟨?_, by simpa using h1⟩, by simpa using h2⟩, ?_⟩,
    by simpa using h4⟩
  · cases v with
    | nil => exact absurd rfl h0
    | cons c rest => simp
  · rw [List.all_eq_true]
    intro c hc
    obtain ⟨x, y⟩ := h3 c hc
    simp [x, y]

theorem tokenB_valText_scalar {v : PyValue} (h : safeScalarB v = true) :
    tokenB (valText v) = true := by
  cases v with
  | list xs => exact absurd h (by simp [safeScalarB])
  | dict m => exact absurd h (by simp [safeScalarB])
  | null => decide
  | bool b => cases b <;> decide
  | int n =>
    apply tokenB_intro (by simpa [valText, pyStr] using intStr_ne_nil n)
    · show isPySpace ((intStr n).headD '.') = false
      rcases intStr_chars n _ (headD_mem (intStr_ne_nil n) '.') with h1 | h1
      · exact not_ws_of_digit h1
      · rw [h1]
        rfl
    · show isPySpace ((intStr n).getLastD '.') = false
      rcases intStr_chars n _ (getLastD_mem (intStr_ne_nil n) '.') with h1 | h1
      · exact not_ws_of_digit h1
      · rw [h1]
        rfl
    · show ∀ c ∈ intStr n, ¬c = '#' ∧ ¬c = '\n'
      intro c hc
      rcases intStr_chars n c hc with h1 | h1
      · constructor <;> (intro he; rw [he] at h1; exact absurd h1 (by decide))
      · rw [h1]
        constructor <;> decide
    · show intStr n ≠ ['|']
      exact intStr_ne_lit n '|' (by decide) (by decide) (by decide)
  | float r =>
    have hf : floatTokenB r = true := by simpa [safeScalarB] using h
    obtain ⟨hok, _, hall, _, _, _, _, hbar, _⟩ := floatTokenB_spec hf
    have hne : r ≠ [] := float_ne_nil hok
    apply tokenB_intro (by simpa [valText, pyStr] using hne)
    · exact (hall _ (headD_mem hne '.')).1
    · exact (hall _ (getLastD_mem hne '.')).1
    · intro c hc
      obtain ⟨a1, a2, a3⟩ := hall c hc
      refine ⟨a3, ?_⟩
      intro he
      rw [he] at a1
      exact absurd a1 (by decide)
    · exact hbar
  | str s =>
    have hs : strTokenB s = true := by simpa [safeScalarB] using h
    obtain ⟨hne, hall, hbar, _⟩ := strTokenB_spec hs
    apply tokenB_intro (by simpa [valText, pyStr] using hne)
    · exact (hall _ (headD_mem hne '.')).1
    · exact (hall _ (getLastD_mem hne '.')).1
    · intro c hc
      obtain ⟨a1, a2, a3⟩ := hall c hc
      refine ⟨a3, ?_⟩
      intro he
      rw [he] at a1
      exact absurd a1 (by decide)
    · exact hbar

theorem tokenB_valText_list {xs : PyList} (h : safeListB xs = true) :
    tokenB (valText (.list xs)) = true := by
  cases xs with
  | nil => exact absurd h (by simp [safeListB])
  | cons a tl0 =>
    cases tl0 with
    | nil => exact absurd h (by simp [safeListB])
    | cons b tl =>
      unfold safeListB at h
      rw [Bool.and_eq_true, Bool.and_eq_true, Bool.and_eq_true,
        Bool.and_eq_true] at h
      obtain ⟨⟨⟨⟨ha, hb⟩, htl⟩, _⟩, _⟩ := h
      have hallsafe : allSafeElem (.cons a (.cons b tl)) = true := by
        rw [allSafeElem, allSafeElem, Bool.and_eq_true, Bool.and_eq_true]
        exact ⟨ha, hb, htl⟩
      have hts := pyStrL_facts _ hallsafe
      have htsne : ∀ t ∈ pyStrL (PyList.cons a (.cons b tl)), t ≠ [] :=
        fun t ht => (hts t ht).1
      have hane : pyStr a ≠ [] := (hts (pyStr a) (by rw [pyStrL]; simp)).1
      have hw : valText (.list (PyList.cons a (.cons b tl))) =
          joinCS (pyStrL (PyList.cons a (.cons b tl))) := rfl
      apply tokenB_intro
      · rw [hw]
        exact joinCS_ne_nil _ (by rw [pyStrL]; simp) htsne
      · rw [hw, pyStrL, joinCS_cons_ne _ (by rw [pyStrL]; simp),
          headD_append _ hane]
        exact isSep_false_not_ws
          (((hts (pyStr a) (by rw [pyStrL]; simp)).2 _
            (headD_mem hane '.')).1)
      · rw [hw, joinCS_getLastD _ (by rw [pyStrL]; simp) htsne]
        have hlm : (pyStrL (PyList.cons a (.cons b tl))).getLastD [] ∈
            pyStrL (PyList.cons a (.cons b tl)) :=
          getLastD_mem (by rw [pyStrL]; simp) []
        obtain ⟨hne2, hch⟩ := hts _ hlm
        exact isSep_false_not_ws (hch _ (getLastD_mem hne2 '.')).1
      · rw [hw]
        intro c hc
        rcases joinCS_mem _ c hc with ⟨t, ht, hct⟩ | h5 | h5
        · exact ⟨((hts t ht).2 c hct).2.1, ((hts t ht).2 c hct).2.2⟩
        · rw [h5]
          constructor <;> decide
        · rw [h5]
          constructor <;> decide
      · rw [hw]
        intro he
        have : ',' ∈ joinCS (pyStrL (PyList.cons a (.cons b tl))) := by
          rw [pyStrL, joinCS_cons_ne _ (by rw [pyStrL]; simp)]
          exact List.mem_append.mpr (Or.inr (by simp))
        rw [he] at this
        simp at this

/-! ## Inserting fresh entries appends them in order -/

theorem dcat_nil : ∀ (d : PyDict), dcat d .nil = d
  | .nil => rfl
  | .cons k v tl => by rw [dcat, dcat_nil tl]

theorem dcat_assoc : ∀ (a b c : PyDict), dcat (dcat a b) c = dcat a (dcat b c)
  | .nil, _, _ => rfl
  | .cons k v tl, b, c => by rw [dcat, dcat, dcat, dcat_assoc tl b c]

theorem dictInsert_fresh : ∀ (pre : PyDict) {k : Str} (v : PyValue),
    keyNotIn k pre = true → dictInsert pre k v = dcat pre (.cons k v .nil)
  | .nil, _, v, _ => rfl
  | .cons k2 v2 tl, k, v, h => by
    rw [keyNotIn, Bool.and_eq_true] at h
    have hne : ¬k2 = k := by
      intro he
      have := h.1
      rw [he] at this
      simp at this
    rw [dictInsert, if_neg hne, dictInsert_fresh tl v h.2, dcat]

theorem keyNotIn_dcat : ∀ (a b : PyDict) (k : Str),
    keyNotIn k (dcat a b) = (keyNotIn k a && keyNotIn k b)
  | .nil, b, k => by simp [dcat, keyNotIn]
  | .cons k2 v2 tl, b, k => by
    rw [dcat, keyNotIn, keyNotIn, keyNotIn_dcat tl b k, Bool.and_assoc]

theorem entriesFresh_dcat : ∀ (m a b : PyDict),
    entriesFresh m (dcat a b) = (entriesFresh m a && entriesFresh m b)
  | .nil, _, _ => rfl
  | .cons k v tl, a, b => by
    rw [entriesFresh, entriesFresh, entriesFresh, keyNotIn_dcat,
      entriesFresh_dcat tl a b]
    cases keyNotIn k a <;> cases keyNotIn k b <;>
      cases entriesFresh tl a <;> cases entriesFresh tl b <;> rfl

theorem entriesFresh_single : ∀ (tl : PyDict) {k : Str} (v : PyValue),
    keyNotIn k tl = true → entriesFresh tl (.cons k v .nil) = true
  | .nil, _, _, _ => rfl
  | .cons k2 v2 tl2, k, v, h => by
    rw [keyNotIn, Bool.and_eq_true] at h
    rw [entriesFresh, Bool.and_eq_true]
    constructor
    · rw [keyNotIn, keyNotIn]
      have : (k2 == k) = false := by
        cases hb : k2 == k
        · rfl
        · have : k2 = k := by simpa using hb
          rw [this] at h
          simp at h
      simp [this]
    · exact entriesFresh_single tl2 v h.2

theorem entriesFresh_nil : ∀ (m : PyDict), entriesFresh m .nil = true
  | .nil => rfl
  | .cons k v tl => by
    rw [entriesFresh, keyNotIn, entriesFresh_nil tl]
    rfl

theorem insertAll_eq_dcat : ∀ (m pre : PyDict), entriesFresh m pre = true →
    safeEntriesB m = true → insertAll pre m = dcat pre m
  | .nil, pre, _, _ => (dcat_nil pre).symm
  | .cons k v tl, pre, hf, hs => by
    rw [entriesFresh, Bool.and_eq_true] at hf
    rw [safeEntriesB, Bool.and_eq_true, Bool.and_eq_true,
      Bool.and_eq_true] at hs
    obtain ⟨⟨⟨_, hkni⟩, _⟩, hstl⟩ := hs
    rw [insertAll, dictInsert_fresh pre v hf.1,
      insertAll_eq_dcat tl (dcat pre (.cons k v .nil))
        (by
          rw [entriesFresh_dcat, Bool.and_eq_true]
          exact ⟨hf.2, entriesFresh_single tl v hkni⟩)
        hstl,
      dcat_assoc]
    rfl

theorem insertAll_nil {m : PyDict} (h : safeEntriesB m = true) :
    insertAll .nil m = m :=
  insertAll_eq_dcat m .nil (entriesFresh_nil m) h

/-! ## Joined lines split back into lines -/

theorem joinNL_cons_ne (l : Str) {ls : List Str} (h : ls ≠ []) :
    joinNL (l :: ls) = l ++ '\n' :: joinNL ls := by
  cases ls with
  | nil => exact absurd rfl h
  | cons a b => rfl

theorem joinNL_ne_nil : ∀ (ls : List Str), ls ≠ [] → (∀ l ∈ ls, l ≠ []) →
    joinNL ls ≠ [] := by
  intro ls h0 h1
  cases ls with
  | nil => exact absurd rfl h0
  | cons l rest =>
    cases rest with
    | nil => exact h1 l (by simp)
    | cons u rest2 =>
      rw [joinNL_cons_ne l (by simp)]
      intro he
      have := h1 l (by simp)
      cases ht : l with
      | nil => exact this ht
      | cons x xs => rw [ht] at he; simp at he

theorem joinNL_append : ∀ (a b : List Str), a ≠ [] → b ≠ [] →
    joinNL (a ++ b) = joinNL a ++ '\n' :: joinNL b := by
  intro a
  induction a with
  | nil => intro b h _; exact absurd rfl h
  | cons l rest ih =>
    intro b _ hb
    cases rest with
    | nil =>
      cases b with
      | nil => exact absurd rfl hb
      | cons x xs => rfl
    | cons u rest2 =>
      rw [List.cons_append, joinNL_cons_ne l (by simp),
        joinNL_cons_ne l (by simp), ih b (by simp) hb]
      simp

theorem splitChar_joinNL : ∀ (ls : List Str), ls ≠ [] →
    (∀ l ∈ ls, ∀ c ∈ l, ¬c = '\n') → splitChar '\n' (joinNL ls) = ls := by
  intro ls
  induction ls with
  | nil => intro h _; exact absurd rfl h
  | cons l rest ih =>
    intro _ hall
    cases rest with
    | nil => exact splitChar_no_sep (hall l (by simp))
    | cons u rest2 =>
      rw [joinNL_cons_ne l (by simp),
        splitChar_append_sep _ (hall l (by simp)),
        ih (by simp) (fun e he => hall e (by simp [he]))]

theorem joinNL_getLastD : ∀ (ls : List Str), ls ≠ [] → (∀ l ∈ ls, l ≠ []) →
    (joinNL ls).getLastD '.' = (ls.getLastD []).getLastD '.' := by
  intro ls
  induction ls with
  | nil => intro h _; exact absurd rfl h
  | cons l rest ih =>
    intro _ hall
    cases rest with
    | nil => simp [joinNL, List.getLastD_cons]
    | cons u rest2 =>
      rw [joinNL_cons_ne l (by simp),
        getLastD_append l (by simp) '.' '.',
        List.getLastD_cons,
        getLastD_of_ne_nil
          (joinNL_ne_nil (u :: rest2) (by simp)
            (fun e he => hall e (by simp [he]))) '\n' '.',
        ih (by simp) (fun e he => hall e (by simp [he]))]
      conv_rhs => rw [List.getLastD_cons]
      rw [getLastD_of_ne_nil (show (u :: rest2 : List Str) ≠ [] from by simp)
        l []]

theorem joinNL_headD (l : Str) (ls : List Str) (hl : l ≠ []) :
    (joinNL (l :: ls)).headD '.' = l.headD '.' := by
  cases ls with
  | nil => rfl
  | cons u rest =>
    rw [joinNL_cons_ne l (by simp)]
    exact headD_append _ hl '.'

/-! ## Safe values reparse from their serialized value text -/

theorem parse_value_valText_scalar {v : PyValue} (h : safeScalarB v = true) :
    parse_value (valText v) = v := by
  cases v with
  | list xs => exact absurd h (by simp [safeScalarB])
  | dict m => exact absurd h (by simp [safeScalarB])
  | null => decide
  | bool b => cases b <;> decide
  | int n => exact parse_value_intStr n
  | float r => exact parse_value_float (by simpa [safeScalarB] using h)
  | str s => exact parse_value_str (by simpa [safeScalarB] using h)

/-! ## The nested-block scan collects exactly the deeper lines -/

theorem parse_nested_go_collect (ind : Nat) :
    ∀ (sub rest : List Str),
    (∀ l ∈ sub, strip l ≠ [] ∧ startsHash (strip l) = false ∧
      ind < get_indent l) →
    (rest = [] ∨ ∃ l0 rest2, rest = l0 :: rest2 ∧ strip l0 ≠ [] ∧
      startsHash (strip l0) = false ∧ get_indent l0 ≤ ind) →
    parse_nested_go ind (sub ++ rest) = (sub, sub.length) := by
  intro sub
  induction sub with
  | nil =>
    intro rest _ hrest
    rcases hrest with h1 | ⟨l0, rest2, heq, hb, hh, hle⟩
    · rw [h1]
      rfl
    · rw [List.nil_append, heq, parse_nested_go]
      rw [if_neg (by
        intro hc
        rcases hc with hc | hc
        · exact hb hc
        · rw [hh] at hc
          exact Bool.false_ne_true hc)]
      rw [if_pos hle]
      simp
  | cons l sub' ih =>
    intro rest hsub hrest
    obtain ⟨hb, hh, hlt⟩ := hsub l (by simp)
    rw [List.cons_append, parse_nested_go]
    rw [if_neg (by
      intro hc
      rcases hc with hc | hc
      · exact hb hc
      · rw [hh] at hc
        exact Bool.false_ne_true hc)]
    rw [if_neg (by omega)]
    rw [ih rest (fun e he => hsub e (by simp [he])) hrest]
    simp

/-- How `_parse_block` consumes a clean `key:` line followed by a
nonempty deeper-indented block and then lines back at its own level: the
deeper lines are collected and recursively parsed at `indent + 2`. -/
theorem parse_block_go_dict_line (fuel lvl : Nat) (sub rest : List Str)
    (acc : PyDict) {k : Str} (hk : cleanKeyB k = true)
    (hsub : ∀ l ∈ sub, strip l ≠ [] ∧ startsHash (strip l) = false ∧
      2 * lvl < get_indent l)
    (hsubne : sub ≠ [])
    (hrest : rest = [] ∨ ∃ l0 rest2, rest = l0 :: rest2 ∧ strip l0 ≠ [] ∧
      startsHash (strip l0) = false ∧ get_indent l0 ≤ 2 * lvl) :
    parse_block_go (fuel + 1)
        ((indentTxt lvl ++ (k ++ [':'])) :: (sub ++ rest)) (2 * lvl) acc =
      ((parse_block_go fuel rest (2 * lvl)
          (dictInsert acc k
            (.dict (parse_block_go fuel sub (2 * lvl + 2) PyDict.nil).1))).1,
       (parse_block_go fuel rest (2 * lvl)
          (dictInsert acc k
            (.dict (parse_block_go fuel sub (2 * lvl + 2) PyDict.nil).1))).2 +
         sub.length + 1) := by
  obtain ⟨hkne, hkh, hkl, hkall⟩ := cleanKeyB_spec hk
  have hXh : isPySpace ((k ++ [':']).headD '.') = false :=
    headD_append_cons [] ':' hkh (by rfl)
  have hXl : isPySpace ((k ++ [':']).getLastD '.') = false := by
    rw [getLastD_append k (by simp) '.' '.']
    rfl
  have hXne : k ++ [':'] ≠ [] := by simp
  have hstrip : strip (indentTxt lvl ++ (k ++ [':'])) = k ++ [':'] :=
    strip_indent_line lvl hXh hXl
  have hindent : get_indent (indentTxt lvl ++ (k ++ [':'])) = 2 * lvl :=
    get_indent_indent_line lvl hXh
  have hhash : startsHash (k ++ [':']) = false := by
    unfold startsHash
    cases k with
    | nil => rfl
    | cons c k' =>
      have : ¬c = '#' := (hkall c (by simp)).2.1
      simpa using this
  have hrc : remove_inline_comment (indentTxt lvl ++ (k ++ [':'])) =
      indentTxt lvl ++ (k ++ [':']) := by
    apply remove_comment_eq_self
    intro c hc
    rcases List.mem_append.mp hc with h1 | h2
    · rw [List.eq_of_mem_replicate h1]
      decide
    · rcases List.mem_append.mp h2 with h3 | h4
      · exact (hkall c h3).2.1
      · rw [List.mem_singleton] at h4
        rw [h4]
        decide
  have hcont : (k ++ [':']).contains ':' = true := contains_append_cons k ':' []
  have hskv : split_key_value (k ++ [':']) = (k, []) :=
    clean_line_kv_empty (fun c hc => (hkall c hc).1) hkh hkl
  have hnst : parse_nested_go (2 * lvl) (sub ++ rest) = (sub, sub.length) :=
    parse_nested_go_collect (2 * lvl) sub rest hsub hrest
  simp only [parse_block_go]
  rw [hrc]
  rw [hstrip]
  rw [if_neg (by
    intro h
    rcases h with h1 | h2
    · exact hXne h1
    · rw [hhash] at h2
      exact Bool.false_ne_true h2)]
  rw [hindent]
  rw [if_neg (lt_irrefl (2 * lvl)), if_neg (lt_irrefl (2 * lvl))]
  rw [hcont]
  rw [if_neg (by simp)]
  rw [hskv]
  rw [if_neg (by simp)]
  rw [if_pos rfl]
  rw [hnst]
  rw [if_pos (by simpa using hsubne)]
  rw [List.drop_left]

/-! ## Facts about serialized lines -/

theorem scalar_line_core {k v : Str} (hk : cleanKeyB k = true)
    (hv : tokenB v = true) (lvl : Nat) :
    strip (indentTxt lvl ++ (k ++ ':' :: ' ' :: v)) = k ++ ':' :: ' ' :: v ∧
    startsHash (k ++ ':' :: ' ' :: v) = false ∧
    get_indent (indentTxt lvl ++ (k ++ ':' :: ' ' :: v)) = 2 * lvl ∧
    isPySpace ((k ++ ':' :: ' ' :: v).getLastD '.') = false := by
  obtain ⟨hkne, hkh, hkl, hkall⟩ := cleanKeyB_spec hk
  obtain ⟨hvne, hvh, hvl, hvall, hvbar⟩ := tokenB_spec hv
  have hXh : isPySpace ((k ++ ':' :: ' ' :: v).headD '.') = false :=
    headD_append_cons (' ' :: v) ':' hkh (by rfl)
  have hXl : isPySpace ((k ++ ':' :: ' ' :: v).getLastD '.') = false := by
    rw [getLastD_append k (by simp) '.' '.', List.getLastD_cons,
      List.getLastD_cons, getLastD_of_ne_nil hvne ' ' '.']
    exact hvl
  refine ⟨strip_indent_line lvl hXh hXl, ?_,
    get_indent_indent_line lvl hXh, hXl⟩
  unfold startsHash
  cases k with
  | nil => rfl
  | cons c k' =>
    have : ¬c = '#' := (hkall c (by simp)).2.1
    simpa using this

theorem key_line_core {k : Str} (hk : cleanKeyB k = true) (lvl : Nat) :
    strip (indentTxt lvl ++ (k ++ [':'])) = k ++ [':'] ∧
    startsHash (k ++ [':']) = false ∧
    get_indent (indentTxt lvl ++ (k ++ [':'])) = 2 * lvl ∧
    isPySpace ((k ++ [':']).getLastD '.') = false := by
  obtain ⟨hkne, hkh, hkl, hkall⟩ := cleanKeyB_spec hk
  have hXh : isPySpace ((k ++ [':']).headD '.') = false :=
    headD_append_cons [] ':' hkh (by rfl)
  have hXl : isPySpace ((k ++ [':']).getLastD '.') = false := by
    rw [getLastD_append k (by simp) '.' '.']
    rfl
  refine ⟨strip_indent_line lvl hXh hXl, ?_,
    get_indent_indent_line lvl hXh, hXl⟩
  unfold startsHash
  cases k with
  | nil => rfl
  | cons c k' =>
    have : ¬c = '#' := (hkall c (by simp)).2.1
    simpa using this

theorem scalar_line_lineP {k v : Str} (hk : cleanKeyB k = true)
    (hv : tokenB v = true) (lvl : Nat) :
    lineP lvl (indentTxt lvl ++ (k ++ ':' :: ' ' :: v)) := by
  obtain ⟨hstrip, hhash, hind, hlast⟩ := scalar_line_core hk hv lvl
  obtain ⟨hkne, hkh, hkl, hkall⟩ := cleanKeyB_spec hk
  obtain ⟨hvne, hvh, hvl, hvall, _⟩ := tokenB_spec hv
  refine ⟨by rw [hstrip]; simp, by rw [hstrip]; exact hhash,
    by rw [hind], ?_, ?_⟩
  · intro c hc
    rcases List.mem_append.mp hc with h1 | h2
    · rw [List.eq_of_mem_replicate h1]
      decide
    · rcases List.mem_append.mp h2 with h3 | h4
      · exact (hkall c h3).2.2
      · rcases h4 with _ | ⟨_, h5⟩
        · decide
        · rcases h5 with _ | ⟨_, h6⟩
          · decide
          · exact (hvall c h6).2
  · rw [getLastD_append (indentTxt lvl) (by simp) '.' '.']
    exact hlast

theorem key_line_lineP {k : Str} (hk : cleanKeyB k = true) (lvl : Nat) :
    lineP lvl (indentTxt lvl ++ (k ++ [':'])) := by
  obtain ⟨hstrip, hhash, hind, hlast⟩ := key_line_core hk lvl
  obtain ⟨hkne, hkh, hkl, hkall⟩ := cleanKeyB_spec hk
  refine ⟨by rw [hstrip]; simp, by rw [hstrip]; exact hhash,
    by rw [hind], ?_, ?_⟩
  · intro c hc
    rcases List.mem_append.mp hc with h1 | h2
    · rw [List.eq_of_mem_replicate h1]
      decide
    · rcases List.mem_append.mp h2 with h3 | h4
      · exact (hkall c h3).2.2
      · rw [List.mem_singleton] at h4
        rw [h4]
        decide
  · rw [getLastD_append (indentTxt lvl) (by simp) '.' '.']
    exact hlast

theorem lineP_mono {lvl : Nat} {l : Str} (h : lineP (lvl + 1) l) :
    lineP lvl l := by
  obtain ⟨h1, h2, h3, h4, h5⟩ := h
  exact ⟨h1, h2, by omega, h4, h5⟩

theorem safeValB_scalar_tokenB {v : PyValue} (hv : safeValB v = true)
    (hnd : ∀ m, v ≠ .dict m) : tokenB (valText v) = true := by
  cases v with
  | dict m => exact absurd rfl (hnd m)
  | list xs => exact tokenB_valText_list (by simpa [safeValB] using hv)
  | null => exact tokenB_valText_scalar (by simpa [safeValB] using hv)
  | bool b => exact tokenB_valText_scalar (by simpa [safeValB] using hv)
  | int n => exact tokenB_valText_scalar (by simpa [safeValB] using hv)
  | float r => exact tokenB_valText_scalar (by simpa [safeValB] using hv)
  | str s => exact tokenB_valText_scalar (by simpa [safeValB] using hv)

theorem safeValB_parse_valText {v : PyValue} (hv : safeValB v = true)
    (hnd : ∀ m, v ≠ .dict m) : parse_value (valText v) = v := by
  cases v with
  | dict m => exact absurd rfl (hnd m)
  | list xs => exact parse_value_list (by simpa [safeValB] using hv)
  | null => exact parse_value_valText_scalar (by simpa [safeValB] using hv)
  | bool b => exact parse_value_valText_scalar (by simpa [safeValB] using hv)
  | int n => exact parse_value_valText_scalar (by simpa [safeValB] using hv)
  | float r =>
    exact parse_value_valText_scalar (by simpa [safeValB] using hv)
  | str s => exact parse_value_valText_scalar (by simpa [safeValB] using hv)

theorem safeValB_dict_spec {m : PyDict} (h : safeValB (.dict m) = true) :
    m ≠ .nil ∧ safeEntriesB m = true := by
  cases m with
  | nil => exact absurd h (by decide)
  | cons k2 v2 tl2 =>
    refine ⟨by simp, ?_⟩
    simpa [safeValB] using h

mutual

theorem entryLines_facts : ∀ (k : Str) (v : PyValue) (lvl : Nat),
    cleanKeyB k = true → safeValB v = true →
    ∀ l ∈ entryLines k v lvl, lineP lvl l
  | k, .dict m, lvl, hk, hv, l, hl => by
    rw [entryLines] at hl
    rcases List.mem_cons.mp hl with h1 | h2
    · subst h1
      exact key_line_lineP hk lvl
    · exact lineP_mono
        (flatLines_facts m (lvl + 1) (safeValB_dict_spec hv).2 l h2)
  | k, .null, lvl, hk, hv, l, hl => by
    simp only [entryLines, List.mem_singleton] at hl
    subst hl
    exact scalar_line_lineP hk
      (safeValB_scalar_tokenB hv (fun m h => PyValue.noConfusion h)) lvl
  | k, .bool b, lvl, hk, hv, l, hl => by
    simp only [entryLines, List.mem_singleton] at hl
    subst hl
    exact scalar_line_lineP hk
      (safeValB_scalar_tokenB hv (fun m h => PyValue.noConfusion h)) lvl
  | k, .int n, lvl, hk, hv, l, hl => by
    simp only [entryLines, List.mem_singleton] at hl
    subst hl
    exact scalar_line_lineP hk
      (safeValB_scalar_tokenB hv (fun m h => PyValue.noConfusion h)) lvl
  | k, .float r, lvl, hk, hv, l, hl => by
    simp only [entryLines, List.mem_singleton] at hl
    subst hl
    exact scalar_line_lineP hk
      (safeValB_scalar_tokenB hv (fun m h => PyValue.noConfusion h)) lvl
  | k, .str s, lvl, hk, hv, l, hl => by
    simp only [entryLines, List.mem_singleton] at hl
    subst hl
    exact scalar_line_lineP hk
      (safeValB_scalar_tokenB hv (fun m h => PyValue.noConfusion h)) lvl
  | k, .list xs, lvl, hk, hv, l, hl => by
    simp only [entryLines, List.mem_singleton] at hl
    subst hl
    exact scalar_line_lineP hk
      (safeValB_scalar_tokenB hv (fun m h => PyValue.noConfusion h)) lvl

theorem flatLines_facts : ∀ (d : PyDict) (lvl : Nat),
    safeEntriesB d = true → ∀ l ∈ flatLines d lvl, lineP lvl l
  | .nil, lvl, _, l, hl => by
    rw [flatLines] at hl
    simp at hl
  | .cons k v tl, lvl, hs, l, hl => by
    rw [safeEntriesB, Bool.and_eq_true, Bool.and_eq_true,
      Bool.and_eq_true] at hs
    obtain ⟨⟨⟨hk, _⟩, hv⟩, htl⟩ := hs
    rw [flatLines] at hl
    rcases List.mem_append.mp hl with h1 | h2
    · exact entryLines_facts k v lvl hk hv l h1
    · exact flatLines_facts tl lvl htl l h2

end

/-! ## The block parser round-trips a safe dict's serialized lines -/

theorem entryLines_eq_single {k : Str} {v : PyValue} (lvl : Nat)
    (hnd : ∀ m, v ≠ .dict m) :
    entryLines k v lvl = [indentTxt lvl ++ (k ++ ':' :: ' ' :: valText v)] := by
  cases v with
  | dict m => exact absurd rfl (hnd m)
  | null => rfl
  | bool b => rfl
  | int n => rfl
  | float r => rfl
  | str s => rfl
  | list xs => rfl

theorem entryLines_ne_nil (k : Str) (v : PyValue) (lvl : Nat) :
    entryLines k v lvl ≠ [] := by
  cases v with
  | dict m => rw [entryLines]; simp
  | null => rw [entryLines_eq_single lvl (fun m h => PyValue.noConfusion h)]; simp
  | bool b =>
    rw [entryLines_eq_single lvl (fun m h => PyValue.noConfusion h)]; simp
  | int n =>
    rw [entryLines_eq_single lvl (fun m h => PyValue.noConfusion h)]; simp
  | float r =>
    rw [entryLines_eq_single lvl (fun m h => PyValue.noConfusion h)]; simp
  | str s =>
    rw [entryLines_eq_single lvl (fun m h => PyValue.noConfusion h)]; simp
  | list xs =>
    rw [entryLines_eq_single lvl (fun m h => PyValue.noConfusion h)]; simp

theorem flatLines_ne_nil {m : PyDict} (h : m ≠ .nil) (lvl : Nat) :
    flatLines m lvl ≠ [] := by
  cases m with
  | nil => exact absurd rfl h
  | cons k v tl =>
    rw [flatLines]
    intro he
    rcases List.append_eq_nil.mp he with ⟨h1, _⟩
    exact entryLines_ne_nil k v lvl h1

theorem flatLines_head {d : PyDict} (lvl : Nat) (hs : safeEntriesB d = true)
    (hne : d ≠ .nil) :
    ∃ l0 ls, flatLines d lvl = l0 :: ls ∧ strip l0 ≠ [] ∧
      startsHash (strip l0) = false ∧ get_indent l0 = 2 * lvl := by
  cases d with
  | nil => exact absurd rfl hne
  | cons k v tl =>
    rw [safeEntriesB, Bool.and_eq_true, Bool.and_eq_true,
      Bool.and_eq_true] at hs
    obtain ⟨⟨⟨hk, _⟩, hv⟩, _⟩ := hs
    by_cases hd : ∃ m, v = PyValue.dict m
    · obtain ⟨m, rfl⟩ := hd
      obtain ⟨hstrip, hhash, hind, _⟩ := key_line_core hk lvl
      refine ⟨indentTxt lvl ++ (k ++ [':']),
        flatLines m (lvl + 1) ++ flatLines tl lvl, ?_, ?_, ?_, hind⟩
      · rw [flatLines, entryLines, List.cons_append]
      · rw [hstrip]
        simp
      · rw [hstrip]
        exact hhash
    · have hnd : ∀ m, v ≠ PyValue.dict m := fun m he => hd ⟨m, he⟩
      obtain ⟨hstrip, hhash, hind, _⟩ :=
        scalar_line_core hk (safeValB_scalar_tokenB hv hnd) lvl
      refine ⟨indentTxt lvl ++ (k ++ ':' :: ' ' :: valText v),
        flatLines tl lvl, ?_, ?_, ?_, hind⟩
      · rw [flatLines, entryLines_eq_single lvl hnd, List.singleton_append]
      · rw [hstrip]
        simp
      · rw [hstrip]
        exact hhash

theorem block_step_scalar {k : Str} {v : PyValue} (hk : cleanKeyB k = true)
    (hv : safeValB v = true) (hnd : ∀ m, v ≠ .dict m) (lvl : Nat)
    (f : Nat) (rest : List Str) (acc : PyDict) :
    parse_block_go (f + 1)
        ((indentTxt lvl ++ (k ++ ':' :: ' ' :: valText v)) :: rest)
        (2 * lvl) acc =
      ((parse_block_go f rest (2 * lvl) (dictInsert acc k v)).1,
       (parse_block_go f rest (2 * lvl) (dictInsert acc k v)).2 + 1) := by
  rw [parse_block_go_scalar_line f lvl rest acc hk
    (safeValB_scalar_tokenB hv hnd), safeValB_parse_valText hv hnd]

theorem block_roundtrip :
    ∀ (d : PyDict) (lvl : Nat) (acc : PyDict) (fuel : Nat),
    safeEntriesB d = true → (flatLines d lvl).length ≤ fuel →
    parse_block_go fuel (flatLines d lvl) (2 * lvl) acc =
      (insertAll acc d, (flatLines d lvl).length)
  | .nil, lvl, acc, fuel, _, _ => by
    cases fuel <;> rfl
  | .cons k v tl, lvl, acc, fuel, hs, hf => by
    rw [safeEntriesB, Bool.and_eq_true, Bool.and_eq_true,
      Bool.and_eq_true] at hs
    obtain ⟨⟨⟨hk, hkni⟩, hv⟩, htl⟩ := hs
    by_cases hd : ∃ m, v = PyValue.dict m
    · obtain ⟨m, rfl⟩ := hd
      obtain ⟨hmne, hm⟩ := safeValB_dict_spec hv
      have hfl : flatLines (PyDict.cons k (PyValue.dict m) tl) lvl =
          (indentTxt lvl ++ (k ++ [':'])) ::
            (flatLines m (lvl + 1) ++ flatLines tl lvl) := by
        rw [flatLines, entryLines, List.cons_append]
      rw [hfl] at hf ⊢
      cases fuel with
      | zero => simp at hf
      | succ f =>
        have hsub : ∀ l ∈ flatLines m (lvl + 1), strip l ≠ [] ∧
            startsHash (strip l) = false ∧ 2 * lvl < get_indent l := by
          intro l hl
          obtain ⟨a1, a2, a3, _, _⟩ := flatLines_facts m (lvl + 1) hm l hl
          exact ⟨a1, a2, by omega⟩
        have hrest : flatLines tl lvl = [] ∨ ∃ l0 rest2,
            flatLines tl lvl = l0 :: rest2 ∧ strip l0 ≠ [] ∧
            startsHash (strip l0) = false ∧ get_indent l0 ≤ 2 * lvl := by
          by_cases htln : tl = PyDict.nil
          · left
            rw [htln]
            rfl
          · right
            obtain ⟨l0, ls, he, a1, a2, a3⟩ := flatLines_head lvl htl htln
            exact ⟨l0, ls, he, a1, a2, by omega⟩
        rw [parse_block_go_dict_line f lvl _ _ acc hk hsub
          (flatLines_ne_nil hmne (lvl + 1)) hrest]
        have h22 : 2 * lvl + 2 = 2 * (lvl + 1) := by omega
        rw [h22]
        have hflen : (flatLines m (lvl + 1)).length +
            (flatLines tl lvl).length + 1 ≤ f + 1 := by
          simpa [List.length_append] using hf
        rw [block_roundtrip m (lvl + 1) PyDict.nil f hm (by omega)]
        dsimp only
        rw [insertAll_nil hm]
        rw [block_roundtrip tl lvl
          (dictInsert acc k (PyValue.dict m)) f htl (by omega)]
        dsimp only
        rw [insertAll]
        simp only [List.length_cons, List.length_append, Prod.mk.injEq]
        exact ⟨trivial, by omega⟩
    · have hnd : ∀ m, v ≠ PyValue.dict m := fun m he => hd ⟨m, he⟩
      have hfl : flatLines (PyDict.cons k v tl) lvl =
          (indentTxt lvl ++ (k ++ ':' :: ' ' :: valText v)) ::
            flatLines tl lvl := by
        rw [flatLines, entryLines_eq_single lvl hnd, List.singleton_append]
      rw [hfl] at hf ⊢
      cases fuel with
      | zero => simp at hf
      | succ f =>
        rw [block_step_scalar hk hv hnd lvl f _ acc]
        rw [block_roundtrip tl lvl (dictInsert acc k v) f htl (by
          simp only [List.length_cons] at hf
          omega)]
        dsimp only
        rw [insertAll]
        simp

/-! ## The serializer's output is the join of the flat line list -/

theorem allScalar_of_allSafe : ∀ (xs : PyList), allSafeElem xs = true →
    allScalar xs = true
  | .nil, _ => rfl
  | .cons v tl, h => by
    rw [allSafeElem, Bool.and_eq_true] at h
    have htl := allScalar_of_allSafe tl h.2
    have hv := h.1
    cases v with
    | null => exact absurd hv (by simp [safeElemB])
    | bool b => simp [allScalar, htl]
    | int n => simp [allScalar, htl]
    | float r => simp [allScalar, htl]
    | str s => simp [allScalar, htl]
    | list xs2 => exact absurd hv (by simp [safeElemB, safeScalarB])
    | dict m => exact absurd hv (by simp [safeElemB, safeScalarB])

theorem allScalar_of_safeListB : ∀ {xs : PyList}, safeListB xs = true →
    allScalar xs = true := by
  intro xs h
  match xs with
  | .nil => exact absurd h (by simp [safeListB])
  | .cons a .nil => exact absurd h (by simp [safeListB])
  | .cons a (.cons b tl) =>
    rw [safeListB, Bool.and_eq_true, Bool.and_eq_true, Bool.and_eq_true,
      Bool.and_eq_true] at h
    obtain ⟨⟨⟨⟨ha, hb⟩, htl⟩, _⟩, _⟩ := h
    refine allScalar_of_allSafe _ ?_
    rw [allSafeElem, Bool.and_eq_true]
    refine ⟨ha, ?_⟩
    rw [allSafeElem, Bool.and_eq_true]
    exact ⟨hb, htl⟩

theorem strTokenB_no_nl {s : Str} (h : strTokenB s = true) :
    s.contains '\n' = false := by
  obtain ⟨_, hall, _⟩ := strTokenB_spec h
  refine contains_false_of_not_mem (fun hm => ?_)
  have := (hall '\n' hm).1
  exact absurd this (by decide)

theorem dumpsLines_cons_scalar {v : PyValue} (hv : safeValB v = true)
    (hnd : ∀ m, v ≠ .dict m) (k : Str) (tl : PyDict) (lvl : Nat) :
    dumpsLines (.cons k v tl) lvl =
      (indentTxt lvl ++ (k ++ ':' :: ' ' :: valText v)) ::
        dumpsLines tl lvl := by
  cases v with
  | dict m => exact absurd rfl (hnd m)
  | null => simp [dumpsLines, valText, List.append_assoc]
  | bool b => simp [dumpsLines, valText, List.append_assoc]
  | int n => simp [dumpsLines, valText, List.append_assoc]
  | float r => simp [dumpsLines, valText, List.append_assoc]
  | str s =>
    have hnl : s.contains '\n' = false :=
      strTokenB_no_nl (by simpa [safeValB, safeScalarB] using hv)
    have hnm : ¬('\n' ∈ s) := by
      intro hm
      rw [show s.contains '\n' = true from by simpa using hm] at hnl
      exact Bool.noConfusion hnl
    simp [dumpsLines, valText, pyStr, hnl, hnm, List.append_assoc]
  | list xs =>
    have has : allScalar xs = true :=
      allScalar_of_safeListB (by simpa [safeValB] using hv)
    simp [dumpsLines, valText, has, List.append_assoc]

theorem dumpsLines_ne_nil {d : PyDict} (h : d ≠ .nil) (lvl : Nat) :
    dumpsLines d lvl ≠ [] := by
  cases d with
  | nil => exact absurd rfl h
  | cons k v tl =>
    cases v with
    | dict m => simp [dumpsLines]
    | null => simp [dumpsLines]
    | bool b => simp [dumpsLines]
    | int n => simp [dumpsLines]
    | float r => simp [dumpsLines]
    | list xs => simp [dumpsLines]
    | str s =>
      rw [dumpsLines]
      intro he
      rcases List.append_eq_nil.mp he with ⟨h1, _⟩
      split at h1 <;> simp at h1

theorem dumps_eq_joinNL_flat :
    ∀ (d : PyDict) (lvl : Nat), safeEntriesB d = true →
    joinNL (dumpsLines d lvl) = joinNL (flatLines d lvl)
  | .nil, _, _ => rfl
  | .cons k v tl, lvl, hs => by
    rw [safeEntriesB, Bool.and_eq_true, Bool.and_eq_true,
      Bool.and_eq_true] at hs
    obtain ⟨⟨⟨hk, hkni⟩, hv⟩, htl⟩ := hs
    by_cases hd : ∃ m, v = PyValue.dict m
    · obtain ⟨m, rfl⟩ := hd
      obtain ⟨hmne, hm⟩ := safeValB_dict_spec hv
      have hflm : flatLines m (lvl + 1) ≠ [] := flatLines_ne_nil hmne (lvl + 1)
      have hIH : joinNL (dumpsLines m (lvl + 1)) =
          joinNL (flatLines m (lvl + 1)) :=
        dumps_eq_joinNL_flat m (lvl + 1) hm
      have hdl : dumpsLines (PyDict.cons k (PyValue.dict m) tl) lvl =
          [indentTxt lvl ++ (k ++ [':']),
            joinNL (dumpsLines m (lvl + 1))] ++ dumpsLines tl lvl := by
        rw [dumpsLines]
        simp [List.append_assoc]
      rw [hdl, flatLines, entryLines, List.cons_append]
      by_cases htn : tl = PyDict.nil
      · subst htn
        rw [show dumpsLines PyDict.nil lvl = ([] : List Str) from rfl,
          show flatLines PyDict.nil lvl = ([] : List Str) from rfl,
          List.append_nil, List.append_nil,
          joinNL_cons_ne _ (by simp), joinNL_cons_ne _ hflm, hIH]
        rfl
      · have hdtl : dumpsLines tl lvl ≠ [] := dumpsLines_ne_nil htn lvl
        have hftl : flatLines tl lvl ≠ [] := flatLines_ne_nil htn lvl
        rw [joinNL_cons_ne _
            (show [joinNL (dumpsLines m (lvl + 1))] ++ dumpsLines tl lvl ≠ []
              from by simp),
          joinNL_append _ _ (by simp) hdtl,
          joinNL_append _ _
            (show (indentTxt lvl ++ (k ++ [':'])) :: flatLines m (lvl + 1) ≠ []
              from by simp) hftl,
          joinNL_cons_ne _ hflm,
          dumps_eq_joinNL_flat tl lvl htl,
          show joinNL [joinNL (dumpsLines m (lvl + 1))] =
            joinNL (dumpsLines m (lvl + 1)) from rfl,
          hIH]
        simp [List.append_assoc]
    · have hnd : ∀ m, v ≠ PyValue.dict m := fun m he => hd ⟨m, he⟩
      rw [dumpsLines_cons_scalar hv hnd k tl lvl, flatLines,
        entryLines_eq_single lvl hnd, List.singleton_append]
      by_cases htn : tl = PyDict.nil
      · subst htn
        rfl
      · rw [joinNL_cons_ne _ (dumpsLines_ne_nil htn lvl),
          joinNL_cons_ne _ (flatLines_ne_nil htn lvl),
          dumps_eq_joinNL_flat tl lvl htl]

/-! ## The full text-level round trip for safe documents -/

theorem strip_ne_nil_imp {l : Str} (h : strip l ≠ []) : l ≠ [] :=
  fun he => h (by rw [he]; rfl)

theorem head_not_ws_of_indent_zero {l : Str} (hne : l ≠ [])
    (h : get_indent l = 0) : isPySpace (l.headD '.') = false := by
  cases l with
  | nil => exact absurd rfl hne
  | cons c cs =>
    by_cases hc : isPySpace c = true
    · exfalso
      rw [get_indent, List.dropWhile_cons_of_pos hc] at h
      have hsub : List.Sublist (cs.dropWhile isPySpace) cs := by
        first
        | exact List.dropWhile_sublist _
        | exact List.dropWhile_sublist isPySpace
        | exact List.dropWhile_sublist
      have hle := hsub.length_le
      simp only [List.length_cons] at h
      omega
    · rw [List.headD_cons]
      cases hb : isPySpace c with
      | false => rfl
      | true => exact absurd hb hc

theorem parse_dumps {d : PyDict} (h : safeEntriesB d = true) :
    parse (dumps d 0) = d := by
  by_cases hdn : d = PyDict.nil
  · subst hdn
    decide
  · have hflne : flatLines d 0 ≠ [] := flatLines_ne_nil hdn 0
    obtain ⟨l0, ls, hfleq, hl0s, _, hl0i⟩ := flatLines_head 0 h hdn
    have hhead : isPySpace ((joinNL (flatLines d 0)).headD '.') = false := by
      rw [hfleq, joinNL_headD l0 ls (strip_ne_nil_imp hl0s)]
      exact head_not_ws_of_indent_zero (strip_ne_nil_imp hl0s)
        (by simpa using hl0i)
    have hlast : isPySpace ((joinNL (flatLines d 0)).getLastD '.') = false := by
      rw [joinNL_getLastD _ hflne
        (fun l hl => strip_ne_nil_imp (flatLines_facts d 0 h l hl).1)]
      exact (flatLines_facts d 0 h _ (getLastD_mem hflne [])).2.2.2.2
    show (parse_block (splitChar '\n' (strip (joinNL (dumpsLines d 0)))) 0).1 = d
    rw [dumps_eq_joinNL_flat d 0 h, strip_eq_self hhead hlast,
      splitChar_joinNL _ hflne
        (fun l hl => (flatLines_facts d 0 h l hl).2.2.2.1)]
    have hrt := block_roundtrip d 0 PyDict.nil (flatLines d 0).length h
      (Nat.le_refl _)
    rw [Nat.mul_zero] at hrt
    show (parse_block_go (flatLines d 0).length (flatLines d 0) 0
      PyDict.nil).1 = d
    rw [hrt]
    exact insertAll_nil h

/-! ## Claim C2: indentation-step normalization -/

/-- C2 counterexample: the claim asserts that a document whose nested block
is indented by a 4-space step parses identically to the 2-space-step
version.  It does not: `"a:\n    b: 1"` and `"a:\n  b: 1"` parse to
different documents. -/
theorem C2_counterexample :
    parse "a:\n    b: 1".data ≠ parse "a:\n  b: 1".data := by decide

/-- C2 amended: the nested-block parser recurses with
`startIndent = parent + 2`, and the recursive block parser *skips* lines
indented deeper than its level, so children indented 4 more than their key
are dropped: the key parses to an empty map, not to the same nested map the
2-space-step document produces. -/
theorem C2_amended_skip_deep_children :
    parse "a:\n    b: 1".data = .cons "a".data (.dict .nil) .nil ∧
    parse "a:\n  b: 1".data =
      .cons "a".data (.dict (.cons "b".data (.int 1) .nil)) .nil := by decide

/-! ## Claim C3: multi-line block with a trailing blank line -/

/-- C3 counterexample: after `a: |` with the two collected lines `"  x"`
and the blank `"  "`, the bound string is the single line `"x"` — it has
one line, not two: `'\n'.join(["x", ""]).rstrip()` trims the blank line
away together with the line break. -/
theorem C3_counterexample :
    parse "a: |\n  x\n  \nb: 1".data =
      .cons "a".data (.str "x".data) (.cons "b".data (.int 1) .nil) ∧
    (splitChar '\n' "x".data).length = 1 := by decide

/-- C3 amended: `key: |` followed by two lines indented 2 more than the
key, the second blank, binds the key to the one-line string holding the
first line's text: the final `rstrip` trims the trailing blank line and
the line break before it (blank lines are preserved only in the interior
of a multi-line block, as the three-line variant shows). -/
theorem C3_amended_trailing_blank_trimmed :
    parse "a: |\n  x\n  \nb: 1".data =
      .cons "a".data (.str "x".data) (.cons "b".data (.int 1) .nil) ∧
    parse "a: |\n  x\n  \n  y\nb: 1".data =
      .cons "a".data (.str "x\n\ny".data) (.cons "b".data (.int 1) .nil) := by
  decide

/-! ## Claim C4: serialization of Null and of an empty map -/

/-- C4 counterexample: the claim asserts that a key bound to `None` and a
key bound to an empty map both serialize to the bare line `key:`, with
identical output.  Neither holds: the `None` case is not the bare line,
and the two outputs differ. -/
theorem C4_counterexample :
    dumps (.cons "a".data .null .nil) 0 ≠ "a:".data ∧
    dumps (.cons "a".data .null .nil) 0 ≠
      dumps (.cons "a".data (.dict .nil) .nil) 0 := by decide

/-- C4 amended: a key bound to `None` falls into the generic scalar branch
and serializes as `key: None`; a key bound to an empty map serializes as
`key:` followed by an empty line (the recursive `dumps` of the empty dict
is the empty string, joined after the key line).  The two outputs differ. -/
theorem C4_amended_null_vs_empty_map :
    dumps (.cons "a".data .null .nil) 0 = "a: None".data ∧
    dumps (.cons "a".data (.dict .nil) .nil) 0 = "a:\n".data := by decide

/-! ## Claim C7: quoting does not protect commas -/

/-- C7 counterexample: the claim asserts
`parse("a: \"x, y\"") = ("a" ↦ String "x, y")`.  It does not hold: the
comma triggers the implicit-list split even inside a double-quoted value. -/
theorem C7_counterexample :
    parse "a: \"x, y\"".data ≠ .cons "a".data (.str "x, y".data) .nil := by
  decide

/-- C7 amended: a double-quoted value containing a comma is still split on
the comma (only the space-without-comma case is protected by the leading
double quote), yielding the two strings `"x` and `y"` with the quote
characters left in place; the unquoted `a: x, y` parses to the two-element
string list as claimed. -/
theorem C7_amended_quoted_comma_still_split :
    parse "a: \"x, y\"".data =
      .cons "a".data
        (.list (.cons (.str "\"x".data) (.cons (.str "y\"".data) .nil))) .nil ∧
    parse "a: x, y".data =
      .cons "a".data
        (.list (.cons (.str "x".data) (.cons (.str "y".data) .nil))) .nil := by
  decide

/-! ## Claim C8: case-insensitive boolean and null literals -/

/-- C8: boolean and null literal recognition in the scalar parser is
case-insensitive: `yes`, `YES`, `Yes` parse to `True`; `-`, `null`,
`NONE` parse to `None`. -/
theorem C8_bool_null_case_insensitive :
    parse_simple_value "yes".data = .bool true ∧
    parse_simple_value "YES".data = .bool true ∧
    parse_simple_value "Yes".data = .bool true ∧
    parse_simple_value "-".data = .null ∧
    parse_simple_value "null".data = .null ∧
    parse_simple_value "NONE".data = .null := by decide

/-! ## Claim C10: a single quote character is a quoted empty string -/

/-- C10: the quote-stripping check only requires the value to start and
end with the same quote character, with no minimum length, so the
one-character value `"` satisfies both conditions and is stripped to the
empty string: `parse "a: \""` binds `a` to `String ""` (and the scalar
parser behaves the same on a lone single-quote character). -/
theorem C10_lone_quote_is_empty_string :
    parse "a: \"".data = .cons "a".data (.str []) .nil ∧
    parse_simple_value [Char.ofNat 39] = .str [] := by decide

/-! ## Claim C1: parse after serialize is the identity -/

/-- C1 counterexample: the document `\x7ba: String "yes"\x7d` is built only
from a `String` value with no commas, spaces or line breaks, yet it does
not round-trip: it serializes to the line `a: yes`, which parses back to
`\x7ba: Bool true\x7d`, because the scalar parser recognizes the literal
`yes` as a boolean before falling back to a plain string. -/
theorem C1_counterexample :
    parse (dumps (PyDict.cons "a".data (PyValue.str "yes".data)
        PyDict.nil) 0) =
      PyDict.cons "a".data (PyValue.bool true) PyDict.nil ∧
    PyDict.cons "a".data (PyValue.bool true) PyDict.nil ≠
      PyDict.cons "a".data (PyValue.str "yes".data) PyDict.nil := by decide

/-- C1 (amended): serialize-then-parse is the identity on safe documents:
clean, duplicate-free keys; scalar values whose `str()` text reparses to
the same value (which excludes strings spelled like booleans, nulls,
numbers or quoted/bracketed text, and excludes whitespace, commas and
`#`); lists of at least two such scalars; and nonempty nested maps of the
same shape.  Under these conditions `parse (dumps d 0) = d`. -/
theorem C1_amended_safe_roundtrip (d : PyDict)
    (h : safeEntriesB d = true) : parse (dumps d 0) = d :=
  parse_dumps h

/-- Witness for the amended C1 round-trip at a concrete document holding a
string, an integer, a float, a boolean, a null, a two-element integer
list and a nested one-entry map. -/
theorem C1_amended_safe_roundtrip_witness :
    parse (dumps (PyDict.cons "name".data (PyValue.str "hello".data)
      (PyDict.cons "count".data (PyValue.int 42)
      (PyDict.cons "ratio".data (PyValue.float "1.5".data)
      (PyDict.cons "ok".data (PyValue.bool true)
      (PyDict.cons "empty".data PyValue.null
      (PyDict.cons "tags".data
        (PyValue.list (PyList.cons (PyValue.int 1)
          (PyList.cons (PyValue.int 2) PyList.nil)))
      (PyDict.cons "sub".data
        (PyValue.dict (PyDict.cons "x".data (PyValue.int 3) PyDict.nil))
        PyDict.nil))))))) 0) =
      PyDict.cons "name".data (PyValue.str "hello".data)
      (PyDict.cons "count".data (PyValue.int 42)
      (PyDict.cons "ratio".data (PyValue.float "1.5".data)
      (PyDict.cons "ok".data (PyValue.bool true)
      (PyDict.cons "empty".data PyValue.null
      (PyDict.cons "tags".data
        (PyValue.list (PyList.cons (PyValue.int 1)
          (PyList.cons (PyValue.int 2) PyList.nil)))
      (PyDict.cons "sub".data
        (PyValue.dict (PyDict.cons "x".data (PyValue.int 3) PyDict.nil))
        PyDict.nil)))))) :=
  C1_amended_safe_roundtrip _ (by decide)

end Ndf
